import Mathlib

/-!
# HDR+ finishing pipeline: a model of `src/finish.cpp`

The pipeline is written with Halide.  A Halide `Func` is a pure function on integer
coordinates, so every stage is modelled as a Lean function `ℤ → ℤ → ℤ` (a plane) or
`ℤ → ℤ → ℤ → ℤ` (a plane per channel).  Update definitions over a reduction domain
(`RDom`) are modelled by folding point updates over the domain in Halide's iteration
order (innermost dimension first).

Integer samples (`u16`, `i32`, `u32`) are integers; casts that can wrap reduce modulo the
width of the type.  `float` values are the rationals they denote, and every `float`
operation rounds its exact result to binary32 (`f32`, round to nearest, ties to even),
as IEEE 754 arithmetic does.  Exponent overflow, subnormals, infinities and NaN are not
represented.
-/

namespace HDRPlus

/-! ## Numeric model -/

/-- Round a rational to the nearest integer, ties going to the even neighbour. -/
def rne (q : ℚ) : ℤ :=
  if q - ⌊q⌋ < 1 / 2 then ⌊q⌋
  else if 1 / 2 < q - ⌊q⌋ then ⌊q⌋ + 1
  else if ⌊q⌋ % 2 = 0 then ⌊q⌋ else ⌊q⌋ + 1

/-- Rounding to binary32: 24 significant bits, round to nearest, ties to even.  This is
the value of the Halide cast `f32(e)` and of the result of every `float` operation whose
exact result is `q`.  The exponent range is unbounded in the model. -/
def f32 (q : ℚ) : ℚ :=
  if q = 0 then 0
  else (rne (q / (2 : ℚ) ^ (Int.log 2 |q| - 23)) : ℚ) * (2 : ℚ) ^ (Int.log 2 |q| - 23)

/-- The Halide cast `i32(e)` of a `float`: conversion truncates toward zero. -/
def i32 (q : ℚ) : ℤ := if 0 ≤ q then ⌊q⌋ else ⌈q⌉

/-- Wrap-around of 32-bit signed arithmetic. -/
def wrap_i32 (n : ℤ) : ℤ := (n + 2147483648) % 4294967296 - 2147483648

/-- Wrap-around of 32-bit unsigned arithmetic. -/
def wrap_u32 (n : ℤ) : ℤ := n % 4294967296

/-- The Halide cast `u16(e)` of an integer: keeps the low 16 bits. -/
def u16 (n : ℤ) : ℤ := n % 65536

/-- Halide `u16_sat` on a `float`: `clamp(e, 0, 65535)` followed by the truncating cast. -/
def u16_sat (q : ℚ) : ℤ := i32 (max (min q 65535) 0)

/-- Halide `u16_sat` on an `i32` or `u32`: `clamp(e, 0, 65535)` followed by the cast. -/
def u16_sat_int (n : ℤ) : ℤ := max (min n 65535) 0

/-- Halide `u8_sat` on a `u16`: `min(e, 255)` followed by the cast. -/
def u8_sat (n : ℤ) : ℤ := min n 255

/-- A 16-bit sample. -/
def isU16 (n : ℤ) : Prop := 0 ≤ n ∧ n ≤ 65535

instance (n : ℤ) : Decidable (isU16 n) := by unfold isU16; infer_instance

/-! ## Reduction domains -/

/-- One Halide update definition `out(site r) = val r` over the reduction domain
`RDom(0, nx, 0, ny)`: the point updates are applied for `r.y = 0 .. ny-1` (outer loop)
and `r.x = 0 .. nx-1` (inner loop). -/
def rdomUpdate {K : Type} [DecidableEq K] (nx ny : ℕ) (site : ℤ → ℤ → K)
    (val : ℤ → ℤ → ℤ) (out : K → ℤ) : K → ℤ :=
  (List.range ny).foldl
    (fun o (ry : ℕ) => (List.range nx).foldl
      (fun o2 (rx : ℕ) => Function.update o2 (site (rx : ℤ) (ry : ℤ)) (val (rx : ℤ) (ry : ℤ))) o)
    out

/-- The extent `width / 2` of a reduction domain, `width` being a C++ `int`. -/
def halfExtent (width : ℤ) : ℕ := (width.tdiv 2).toNat

/-! ## Stage 1: black and white point -/

/-- `black_white_point` (finish.cpp:10-21).  `65535.f / (wp - bp)` converts the integer
difference to `float` and divides in `float`; the pixel expression converts the `i32`
difference to `float` and multiplies in `float`.

For `wp = bp` the divisor is `0.f` and the factor is `+inf`, which the rationals do not
hold, so that case is written out: a pixel above `bp` gives `+inf`, which `u16_sat` takes
to 65535, and a pixel below `bp` gives `-inf`, which `u16_sat` takes to 0.  A pixel equal
to `bp` gives `0 * inf = NaN`, whose conversion the source does not determine; the model
returns 0 there and no statement below is about that value. -/
def black_white_point (input : ℤ → ℤ → ℤ) (bp wp : ℤ) : ℤ → ℤ → ℤ :=
  if wp = bp then
    fun x y => if bp < input x y then 65535 else 0
  else
    let white_factor : ℚ := f32 (65535 / f32 ((wp - bp : ℤ) : ℚ))
    fun x y => u16_sat (f32 (f32 ((input x y - bp : ℤ) : ℚ) * white_factor))

/-! ## Stage 2: white balance -/

/-- The four white-balance gains of `finish.h` (C++ `float` fields). -/
structure WhiteBalance where
  r : ℚ
  g0 : ℚ
  g1 : ℚ
  b : ℚ

/-- The site written by update `i` of `white_balance` at the point `(rx, ry)` of the
reduction domain (finish.cpp:33-36, left-hand sides). -/
def wb_site (i : Fin 4) (rx ry : ℤ) : ℤ × ℤ :=
  match i with
  | 0 => (rx * 2, ry * 2)
  | 1 => (rx * 2 + 1, ry * 2)
  | 2 => (rx * 2, ry * 2 + 1)
  | 3 => (rx * 2 + 1, ry * 2 + 1)

/-- `white_balance` (finish.cpp:24-50): the pure definition is 0 and four updates over
`RDom(0, width / 2, 0, height / 2)` write the four positions of each 2x2 cell. -/
def white_balance (input : ℤ → ℤ → ℤ) (width height : ℤ) (wb : WhiteBalance) :
    ℤ → ℤ → ℤ :=
  let nx := halfExtent width
  let ny := halfExtent height
  let out0 : ℤ × ℤ → ℤ := fun _ => u16 0
  let out1 := rdomUpdate nx ny (wb_site 0)
    (fun rx ry => u16_sat (f32 (wb.r * f32 (input (rx * 2) (ry * 2))))) out0
  let out2 := rdomUpdate nx ny (wb_site 1)
    (fun rx ry => u16_sat (f32 (wb.g0 * f32 (input (rx * 2 + 1) (ry * 2))))) out1
  let out3 := rdomUpdate nx ny (wb_site 2)
    (fun rx ry => u16_sat (f32 (wb.g1 * f32 (input (rx * 2) (ry * 2 + 1))))) out2
  let out4 := rdomUpdate nx ny (wb_site 3)
    (fun rx ry => u16_sat (f32 (wb.b * f32 (input (rx * 2 + 1) (ry * 2 + 1))))) out3
  fun x y => out4 (x, y)

/-- The gain of the Bayer position of `(x, y)` as the specification words it: `r` at
(even, even), `g0` at (odd, even), `g1` at (even, odd) and `b` at (odd, odd). -/
def bayer_gain (wb : WhiteBalance) (x y : ℤ) : ℚ :=
  if x % 2 = 0 ∧ y % 2 = 0 then wb.r
  else if x % 2 = 1 ∧ y % 2 = 0 then wb.g0
  else if x % 2 = 0 ∧ y % 2 = 1 then wb.g1
  else wb.b

/-! ## Stage 3: demosaic -/

/-- A Halide point update `f(a, b) = v` of a two-dimensional `Func`. -/
def setAt (f : ℤ → ℤ → ℤ) (a b v : ℤ) : ℤ → ℤ → ℤ :=
  fun x y => if x = a ∧ y = b then v else f x y

/-- Kernel `f0` (finish.cpp:80, 90-94): G at R locations; G at B locations. -/
def f0 : ℤ → ℤ → ℤ :=
  let f : ℤ → ℤ → ℤ := fun _ _ => 0
  let f := setAt f 0 (-2) (-1)
  let f := setAt f 0 (-1) 2
  let f := setAt f (-2) 0 (-1)
  let f := setAt f (-1) 0 2
  let f := setAt f 0 0 4
  let f := setAt f 1 0 2
  let f := setAt f 2 0 (-1)
  let f := setAt f 0 1 2
  setAt f 0 2 (-1)

/-- Kernel `f1` (finish.cpp:81, 96-100): R at green in R row, B at green in B row. -/
def f1 : ℤ → ℤ → ℤ :=
  let f : ℤ → ℤ → ℤ := fun _ _ => 0
  let f := setAt f 0 (-2) 1
  let f := setAt f (-1) (-1) (-2)
  let f := setAt f 1 (-1) (-2)
  let f := setAt f (-2) 0 (-2)
  let f := setAt f (-1) 0 8
  let f := setAt f 0 0 10
  let f := setAt f 1 0 8
  let f := setAt f 2 0 (-2)
  let f := setAt f (-1) 1 (-2)
  let f := setAt f 1 1 (-2)
  setAt f 0 2 1

/-- Kernel `f2` (finish.cpp:82, 102-106): R at green in B row, B at green in R row. -/
def f2 : ℤ → ℤ → ℤ :=
  let f : ℤ → ℤ → ℤ := fun _ _ => 0
  let f := setAt f 0 (-2) (-2)
  let f := setAt f (-1) (-1) (-2)
  let f := setAt f 0 (-1) 8
  let f := setAt f 1 (-1) (-2)
  let f := setAt f (-2) 0 1
  let f := setAt f 0 0 10
  let f := setAt f 2 0 1
  let f := setAt f (-1) 1 (-2)
  let f := setAt f 0 1 8
  let f := setAt f 1 1 (-2)
  setAt f 0 2 (-2)

/-- Kernel `f3` (finish.cpp:83, 108-112): R at blue, B at red.  The entry at `(2, 0)` is
`-2` in the source. -/
def f3 : ℤ → ℤ → ℤ :=
  let f : ℤ → ℤ → ℤ := fun _ _ => 0
  let f := setAt f 0 (-2) (-3)
  let f := setAt f (-1) (-1) 4
  let f := setAt f 1 (-1) 4
  let f := setAt f (-2) 0 (-3)
  let f := setAt f 0 0 12
  let f := setAt f 2 0 (-2)
  let f := setAt f (-1) 1 4
  let f := setAt f 1 1 4
  setAt f 0 2 (-3)

/-- Divisor of `f0` (finish.cpp:85). -/
def f0_sum : ℤ := 8

/-- Divisor of `f1` (finish.cpp:86). -/
def f1_sum : ℤ := 16

/-- Divisor of `f2` (finish.cpp:87). -/
def f2_sum : ℤ := 16

/-- Divisor of `f3` (finish.cpp:88). -/
def f3_sum : ℤ := 16

/-- Halide `sum(e)` over `RDom r0(-2, 5, -2, 5)`: the 25 terms are added in 32-bit signed
arithmetic, `r0.x` innermost. -/
def sum_r0 (e : ℤ → ℤ → ℤ) : ℤ :=
  (List.range 5).foldl
    (fun acc (j : ℕ) => (List.range 5).foldl
      (fun acc2 (i : ℕ) => wrap_i32 (acc2 + e ((i : ℤ) - 2) ((j : ℤ) - 2))) acc)
    0

/-- Sum of the 25 weights of a 5x5 kernel over the window `-2 .. 2` in both directions. -/
def kernel_sum (f : ℤ → ℤ → ℤ) : ℤ := sum_r0 f

/-- Halide `%` on integers: the result is 0 for a zero divisor and non-negative otherwise. -/
def halide_mod (a b : ℤ) : ℤ := if b = 0 then 0 else a % b

/-- Modelled from the spec: the source coordinate of the mirror-interior boundary
reflection (Halide's `BoundaryConditions::mirror_interior`, which is not part of this
source tree) for the range `[0, extent)`: the plane is reflected about its first and last
sample without repeating the edge sample, so the extension has period `2 * (extent - 1)`. -/
def mirror_coord (extent x : ℤ) : ℤ :=
  let limit := extent - 1
  let coord := halide_mod x (2 * limit)
  let coord := coord - limit
  let coord := |coord|
  let coord := limit - coord
  max (min coord limit) 0

/-- `BoundaryConditions::mirror_interior(input, 0, width, 0, height)` (finish.cpp:76). -/
def mirror_interior (input : ℤ → ℤ → ℤ) (width height : ℤ) : ℤ → ℤ → ℤ :=
  fun x y => input (mirror_coord width x) (mirror_coord height y)

/-- One intermediate of finish.cpp:116-119:
`u16_sat(sum(i32(input_mirror(x + r0.x, y + r0.y)) * f(r0.x, r0.y)) / f_sum)`.  Halide
integer division rounds toward minus infinity. -/
def demosaic_filter (input_mirror f : ℤ → ℤ → ℤ) (f_sum : ℤ) : ℤ → ℤ → ℤ :=
  fun x y => u16_sat_int
    (Int.fdiv (sum_r0 (fun rx ry => wrap_i32 (input_mirror (x + rx) (y + ry) * f rx ry))) f_sum)

/-- Intermediate `d0` (finish.cpp:116). -/
def d0 (input : ℤ → ℤ → ℤ) (width height : ℤ) : ℤ → ℤ → ℤ :=
  demosaic_filter (mirror_interior input width height) f0 f0_sum

/-- Intermediate `d1` (finish.cpp:117). -/
def d1 (input : ℤ → ℤ → ℤ) (width height : ℤ) : ℤ → ℤ → ℤ :=
  demosaic_filter (mirror_interior input width height) f1 f1_sum

/-- Intermediate `d2` (finish.cpp:118). -/
def d2 (input : ℤ → ℤ → ℤ) (width height : ℤ) : ℤ → ℤ → ℤ :=
  demosaic_filter (mirror_interior input width height) f2 f2_sum

/-- Intermediate `d3` (finish.cpp:119). -/
def d3 (input : ℤ → ℤ → ℤ) (width height : ℤ) : ℤ → ℤ → ℤ :=
  demosaic_filter (mirror_interior input width height) f3 f3_sum

/-- The eight update definitions of the demosaic output (finish.cpp:126-137), in source
order, each over `RDom r1(0, width / 2, 0, height / 2)`.  Sites are `(x, y, c)`. -/
def demosaic_updates (input : ℤ → ℤ → ℤ) (width height : ℤ) :
    List ((ℤ × ℤ × ℤ → ℤ) → (ℤ × ℤ × ℤ → ℤ)) :=
  let nx := halfExtent width
  let ny := halfExtent height
  [ rdomUpdate nx ny (fun rx ry => (rx * 2 + 1, ry * 2, 0))
      (fun rx ry => d1 input width height (rx * 2 + 1) (ry * 2)),
    rdomUpdate nx ny (fun rx ry => (rx * 2, ry * 2 + 1, 0))
      (fun rx ry => d2 input width height (rx * 2) (ry * 2 + 1)),
    rdomUpdate nx ny (fun rx ry => (rx * 2 + 1, ry * 2 + 1, 0))
      (fun rx ry => d3 input width height (rx * 2 + 1) (ry * 2 + 1)),
    rdomUpdate nx ny (fun rx ry => (rx * 2, ry * 2, 1))
      (fun rx ry => d0 input width height (rx * 2) (ry * 2)),
    rdomUpdate nx ny (fun rx ry => (rx * 2 + 1, ry * 2 + 1, 1))
      (fun rx ry => d0 input width height (rx * 2 + 1) (ry * 2 + 1)),
    rdomUpdate nx ny (fun rx ry => (rx * 2, ry * 2 + 1, 2))
      (fun rx ry => d1 input width height (rx * 2) (ry * 2 + 1)),
    rdomUpdate nx ny (fun rx ry => (rx * 2 + 1, ry * 2, 2))
      (fun rx ry => d2 input width height (rx * 2 + 1) (ry * 2)),
    rdomUpdate nx ny (fun rx ry => (rx * 2, ry * 2, 2))
      (fun rx ry => d3 input width height (rx * 2) (ry * 2)) ]

/-- `demosaic` (finish.cpp:52-165): every channel starts as the mosaic and the eight
updates are applied in order.  The result is indexed `x y c` with `c = 0, 1, 2` for red,
green, blue. -/
def demosaic (input : ℤ → ℤ → ℤ) (width height : ℤ) : ℤ → ℤ → ℤ → ℤ :=
  let out0 : ℤ × ℤ × ℤ → ℤ := fun p => input p.1 p.2.1
  let out := (demosaic_updates input width height).foldl (fun o u => u o) out0
  fun x y c => out (x, y, c)

/-! ## Helpers of `util.h`

`finish.cpp` calls `gauss_7x7`, `diff`, `gamma_correct` and `gamma_inverse`, which are
declared in `util.h`; the C library supplies `exp` and `pow`.  The functions whose body
is not available are collected in one record and every stage that calls them takes the
record as a parameter. -/

/-- The helpers used by `finish.cpp` whose definition lies outside it. -/
structure Util where
  /-- Helper `gauss_7x7` applied to a 16-bit plane. -/
  gauss_7x7 : (ℤ → ℤ → ℤ) → (ℤ → ℤ → ℤ)
  /-- Helper `gauss_7x7` applied to a `float` plane (the blend masks). -/
  gauss_7x7_f32 : (ℤ → ℤ → ℚ) → (ℤ → ℤ → ℚ)
  /-- Helper `gamma_correct` applied to a 16-bit plane. -/
  gamma_correct : (ℤ → ℤ → ℤ) → (ℤ → ℤ → ℤ)
  /-- Helper `gamma_correct` applied to a three-channel image. -/
  gamma_correct_rgb : (ℤ → ℤ → ℤ → ℤ) → (ℤ → ℤ → ℤ → ℤ)
  /-- Helper `gamma_inverse` applied to a 16-bit plane. -/
  gamma_inverse : (ℤ → ℤ → ℤ) → (ℤ → ℤ → ℤ)
  /-- The `float` exponential. -/
  expf : ℚ → ℚ
  /-- The `float` power function. -/
  powf : ℚ → ℚ → ℚ

/-- Modelled from the spec: `diff` of `util.h`, the Laplacian band
`laplace = unblurred - blurred`, a signed 32-bit difference of two 16-bit planes. -/
def diff (im1 im2 : ℤ → ℤ → ℤ) : ℤ → ℤ → ℤ :=
  fun x y => wrap_i32 (im1 x y - im2 x y)

/-- Modelled from the spec: the repeat-edge boundary condition (Halide's
`BoundaryConditions::repeat_edge`, which is not part of this source tree) over
`[0, width) x [0, height)`: coordinates are clamped to the image. -/
def repeat_edge (im : ℤ → ℤ → ℤ) (width height : ℤ) : ℤ → ℤ → ℤ :=
  fun x y => im (max (min x (width - 1)) 0) (max (min y (height - 1)) 0)

/-! ## Pyramid blender -/

/-- The variables of `combine` that change from one pyramid layer to the next. -/
structure Pyramid where
  unblurred1 : ℤ → ℤ → ℤ
  unblurred2 : ℤ → ℤ → ℤ
  blurred1 : ℤ → ℤ → ℤ
  blurred2 : ℤ → ℤ → ℤ
  mask1 : ℤ → ℤ → ℚ
  mask2 : ℤ → ℤ → ℚ
  accumulator : ℤ → ℤ → ℤ

/-- The term `i32(band(x,y) * mask(x,y))` of finish.cpp:223 and 243: the integer sample
is converted to `float`, multiplied in `float` and truncated. -/
def band_term (band : ℤ) (mask : ℚ) : ℤ := i32 (f32 (f32 (band : ℚ) * mask))

/-- Body of the layer loop of `combine` (finish.cpp:211-239). -/
def combine_layer (U : Util) (s : Pyramid) : Pyramid :=
  let laplace1 := diff s.unblurred1 s.blurred1
  let laplace2 := diff s.unblurred2 s.blurred2
  { accumulator := fun x y => wrap_i32 (s.accumulator x y +
      wrap_i32 (band_term (laplace1 x y) (s.mask1 x y) + band_term (laplace2 x y) (s.mask2 x y)))
    unblurred1 := s.blurred1
    unblurred2 := s.blurred2
    blurred1 := U.gauss_7x7 s.blurred1
    blurred2 := U.gauss_7x7 s.blurred2
    mask1 := U.gauss_7x7_f32 s.mask1
    mask2 := U.gauss_7x7_f32 s.mask2 }

/-- Number of pyramid layers (finish.cpp:207). -/
def num_layers : ℕ := 3

/-- The pixel expression of `init_mask1` (finish.cpp:199), `weight1 / (weight1 + weight2)`:
a `float` sum and a `float` quotient. -/
def init_mask1 (weight1 weight2 : ℚ) : ℚ := f32 (weight1 / f32 (weight1 + weight2))

/-- The pixel expression of `init_mask2` (finish.cpp:200), `1.f - init_mask1(x, y)`: a
`float` difference. -/
def init_mask2 (weight1 weight2 : ℚ) : ℚ := f32 (1 - init_mask1 weight1 weight2)

/-- `combine` (finish.cpp:167-261). -/
def combine (U : Util) (im1 im2 : ℤ → ℤ → ℤ) (width height : ℤ) (dist : ℤ → ℚ) :
    ℤ → ℤ → ℤ :=
  let im1_mirror := repeat_edge im1 width height
  let im2_mirror := repeat_edge im2 width height
  let weight1 : ℤ → ℤ → ℚ := fun x y => f32 (dist (im1 x y))
  let weight2 : ℤ → ℤ → ℚ := fun x y => f32 (dist (im2 x y))
  let s0 : Pyramid :=
    { unblurred1 := im1_mirror
      unblurred2 := im2_mirror
      blurred1 := U.gauss_7x7 im1_mirror
      blurred2 := U.gauss_7x7 im2_mirror
      mask1 := fun x y => init_mask1 (weight1 x y) (weight2 x y)
      mask2 := fun x y => init_mask2 (weight1 x y) (weight2 x y)
      accumulator := fun _ _ => 0 }
  let s := (combine_layer U)^[num_layers - 1] s0
  fun x y => u16_sat_int (wrap_i32 (s.accumulator x y +
    wrap_i32 (band_term (s.blurred1 x y) (s.mask1 x y) + band_term (s.blurred2 x y) (s.mask2 x y))))

/-! ## Stage 5: tone mapping -/

/-- `grayscale` of `tone_map` (finish.cpp:275): `u16(sum(u32(input(x, y, r))) / 3)`. -/
def grayscale (input : ℤ → ℤ → ℤ → ℤ) : ℤ → ℤ → ℤ :=
  fun x y => u16 (wrap_u32 (wrap_u32 (wrap_u32 (0 + input x y 0) + input x y 1) + input x y 2) / 3)

/-- `brighter` of `tone_map` (finish.cpp:277): `u16_sat(gain * u32(grayscale(x, y)))`, the
product being an unsigned 32-bit product. -/
def brighter (gain : ℤ) (gray : ℤ → ℤ → ℤ) : ℤ → ℤ → ℤ :=
  fun x y => u16_sat_int (wrap_u32 (gain * gray x y))

/-- `normal_dist` of `tone_map` (finish.cpp:286):
`f32(exp(-12.5f * pow(f32(v) / 65535.f - .6f, 2.f)))`. -/
def normal_dist (U : Util) (v : ℤ) : ℚ :=
  f32 (U.expf (f32 (-(25 / 2) * U.powf (f32 (f32 (f32 (v : ℚ) / 65535) - f32 (6 / 10))) 2)))

/-- `tone_map` (finish.cpp:263-306). -/
def tone_map (U : Util) (input : ℤ → ℤ → ℤ → ℤ) (width height gain : ℤ) :
    ℤ → ℤ → ℤ → ℤ :=
  let gray := grayscale input
  let bright := brighter gain gray
  let gamma_grayscale := U.gamma_correct gray
  let gamma_brighter := U.gamma_correct bright
  let combine_output := combine U gamma_grayscale gamma_brighter width height (normal_dist U)
  let linear_combine_output := U.gamma_inverse combine_output
  fun x y c => u16_sat_int
    (wrap_u32 (input x y c * linear_combine_output x y) / max 1 (gray x y))

/-! ## Stage 4: colour correction -/

/-- The matrix `srgb_matrix` of `srgb` (finish.cpp:332-336), with the decimal constants
as written; every other entry is 0. -/
def srgb_matrix (x y : ℤ) : ℚ :=
  if x = 0 ∧ y = 0 then 1964399 / 1000000
  else if x = 1 ∧ y = 0 then -1119710 / 1000000
  else if x = 2 ∧ y = 0 then 155311 / 1000000
  else if x = 0 ∧ y = 1 then -241156 / 1000000
  else if x = 1 ∧ y = 1 then 1673722 / 1000000
  else if x = 2 ∧ y = 1 then -432566 / 1000000
  else if x = 0 ∧ y = 2 then 13887 / 1000000
  else if x = 1 ∧ y = 2 then -549820 / 1000000
  else if x = 2 ∧ y = 2 then 1535933 / 1000000
  else 0

/-- `srgb` (finish.cpp:322-349): `u16_sat(sum(srgb_matrix(r, c) * input(x, y, r)))` over
`RDom r(0, 3)`, the constants being `float` literals and the sum a `float` sum. -/
def srgb (input : ℤ → ℤ → ℤ → ℤ) : ℤ → ℤ → ℤ → ℤ :=
  fun x y c => u16_sat
    ((List.range 3).foldl
      (fun acc (r : ℕ) =>
        f32 (acc + f32 (f32 (srgb_matrix (r : ℤ) c) * f32 (input x y (r : ℤ))))) 0)

/-! ## Stage 7: 8-bit interleaved output -/

/-- `u8bit_interleaved` (finish.cpp:351-368): `output(c, x, y) = u8_sat(input(x, y, c) / 256)`.
The result is indexed `c x y`. -/
def u8bit_interleaved (input : ℤ → ℤ → ℤ → ℤ) : ℤ → ℤ → ℤ → ℤ :=
  fun c x y => u8_sat (input x y c / 256)

/-! ## The whole pipeline -/

/-- An error reported by `finish` to its caller.  `finish` in the source has no check,
assertion, exception or status result, so no step of the model produces one. -/
inductive FinishError where
  | precondition_violated : FinishError

/-- `finish` (finish.cpp:370-401): the stages are chained and the last one is returned. -/
def finish (U : Util) (input : ℤ → ℤ → ℤ) (width height bp wp : ℤ) (wb : WhiteBalance) :
    Except FinishError (ℤ → ℤ → ℤ → ℤ) := do
  let black_white_point_output := black_white_point input bp wp
  let white_balance_output := white_balance black_white_point_output width height wb
  let demosaic_output := demosaic white_balance_output width height
  let srgb_output := srgb demosaic_output
  let tone_map_output := tone_map U srgb_output width height 4
  let gamma_correct_output := U.gamma_correct_rgb tone_map_output
  return u8bit_interleaved gamma_correct_output

/-! ## A concrete blur and image for exercising `combine` -/

/-- Sum of `f` over the seven offsets `-3 .. 3`. -/
def sum7 {α : Type} [Add α] (f : ℤ → α) : α :=
  f (-3) + f (-2) + f (-1) + f 0 + f 1 + f 2 + f 3

/-- Modelled from the spec: `gauss_7x7` of `util.h` is a normalized, symmetric 7x7
low-pass filter whose weights are left to the implementation.  This instance takes the
mean of the 49 samples of the window, rounded down to a 16-bit sample. -/
def box_blur (im : ℤ → ℤ → ℤ) : ℤ → ℤ → ℤ :=
  fun x y => sum7 (fun j => sum7 (fun i => im (x + i) (y + j))) / 49

/-- Modelled from the spec: the same normalized 7x7 filter of `util.h` applied to a
`float` plane (a blend mask), the mean of the 49 samples of the window. -/
def box_blur_f32 (m : ℤ → ℤ → ℚ) : ℤ → ℤ → ℚ :=
  fun x y => sum7 (fun j => sum7 (fun i => m (x + i) (y + j))) / 49

/-- Modelled from the spec: an instance of the helpers of `util.h` with the 7x7 mean as
`gauss_7x7` and the identity as gamma curve. -/
def box_util : Util where
  gauss_7x7 := box_blur
  gauss_7x7_f32 := box_blur_f32
  gamma_correct := id
  gamma_correct_rgb := id
  gamma_inverse := id
  expf := fun _ => 1
  powf := fun a _ => a * a

/-- The image `10 * x * x`, which stays below 65536 on 64 columns. -/
def quad_image : ℤ → ℤ → ℤ := fun x _ => 10 * x * x

/-! ## Definitions for the properties of single stages -/

/-- The pixel expression of finish.cpp:295,
`u16_sat(u32(input(x, y, c)) * u32(linear_combine_output(x, y)) / max(1, grayscale(x, y)))`,
as a function of the three samples it reads. -/
def reapply_color (v lb g : ℤ) : ℤ := u16_sat_int (wrap_u32 (v * lb) / max 1 g)

/-- The intermediate of finish.cpp:116-119 with the quotient truncated toward zero
instead of rounded toward minus infinity. -/
def demosaic_filter_trunc (input_mirror f : ℤ → ℤ → ℤ) (f_sum : ℤ) : ℤ → ℤ → ℤ :=
  fun x y => u16_sat_int
    (Int.tdiv (sum_r0 (fun rx ry => wrap_i32 (input_mirror (x + rx) (y + ry) * f rx ry))) f_sum)

/-- Sum of `f` over the five offsets `-2 .. 2`. -/
def sum5 (f : ℤ → ℤ) : ℤ := f (-2) + f (-1) + f 0 + f 1 + f 2

/-! ## Schedules of the demosaic updates -/

/-- The site written by update `i` of the demosaic output at the point `(rx, ry)` of the
reduction domain (finish.cpp:126-137, left-hand sides, in source order). -/
def demosaic_site (i : Fin 8) (rx ry : ℤ) : ℤ × ℤ × ℤ :=
  match i with
  | 0 => (rx * 2 + 1, ry * 2, 0)
  | 1 => (rx * 2, ry * 2 + 1, 0)
  | 2 => (rx * 2 + 1, ry * 2 + 1, 0)
  | 3 => (rx * 2, ry * 2, 1)
  | 4 => (rx * 2 + 1, ry * 2 + 1, 1)
  | 5 => (rx * 2, ry * 2 + 1, 2)
  | 6 => (rx * 2 + 1, ry * 2, 2)
  | 7 => (rx * 2, ry * 2, 2)

/-- The intermediate read by update `i` of the demosaic output (finish.cpp:126-137,
right-hand sides, in source order). -/
def demosaic_source (input : ℤ → ℤ → ℤ) (width height : ℤ) (i : Fin 8) : ℤ → ℤ → ℤ :=
  match i with
  | 0 => d1 input width height
  | 1 => d2 input width height
  | 2 => d3 input width height
  | 3 => d0 input width height
  | 4 => d0 input width height
  | 5 => d1 input width height
  | 6 => d2 input width height
  | 7 => d3 input width height

/-- The points of `RDom(0, nx, 0, ny)` in Halide's sequential order, `r.x` innermost. -/
def rdomCells (nx ny : ℕ) : List (ℕ × ℕ) :=
  (List.range ny).flatMap (fun ry => (List.range nx).map (fun rx => (rx, ry)))

/-- One update definition `out(site r) = val r` with the points of the reduction domain
visited in the order of the list `cells`. -/
def rdomUpdateCells {K : Type} [DecidableEq K] (cells : List (ℕ × ℕ)) (site : ℤ → ℤ → K)
    (val : ℤ → ℤ → ℤ) (out : K → ℤ) : K → ℤ :=
  cells.foldl
    (fun o (c : ℕ × ℕ) =>
      Function.update o (site (c.1 : ℤ) (c.2 : ℤ)) (val (c.1 : ℤ) (c.2 : ℤ)))
    out

/-- Update `i` of the demosaic output with its cells visited in the order `cells`. -/
def demosaic_update (input : ℤ → ℤ → ℤ) (width height : ℤ) (i : Fin 8)
    (cells : List (ℕ × ℕ)) : (ℤ × ℤ × ℤ → ℤ) → (ℤ × ℤ × ℤ → ℤ) :=
  rdomUpdateCells cells (demosaic_site i)
    (fun rx ry => demosaic_source input width height i
      (demosaic_site i rx ry).1 (demosaic_site i rx ry).2.1)

/-- The demosaic output under a schedule: the updates are applied in the order of the list
`order`, and update `i` visits its cells in the order `cells i`. -/
def demosaic_scheduled (input : ℤ → ℤ → ℤ) (width height : ℤ) (order : List (Fin 8))
    (cells : Fin 8 → List (ℕ × ℕ)) : ℤ → ℤ → ℤ → ℤ :=
  let out0 : ℤ × ℤ × ℤ → ℤ := fun p => input p.1 p.2.1
  let out := order.foldl (fun o i => demosaic_update input width height i (cells i) o) out0
  fun x y c => out (x, y, c)

/-! ## Rounding to binary32 -/

theorem rne_intCast (n : ℤ) : rne (n : ℚ) = n := by
  unfold rne
  simp

theorem rne_sub_le (q : ℚ) : |(rne q : ℚ) - q| ≤ 1 / 2 := by
  have h1 := Int.floor_le q
  have h2 := Int.lt_floor_add_one q
  unfold rne
  rw [abs_le]
  split_ifs with ha hb hc
  · constructor <;> linarith
  · push_cast; constructor <;> linarith
  · constructor <;> linarith
  · push_cast; constructor <;> linarith

theorem floor_le_rne (q : ℚ) : ⌊q⌋ ≤ rne q := by
  unfold rne
  split_ifs <;> omega

theorem rne_le_floor_add_one (q : ℚ) : rne q ≤ ⌊q⌋ + 1 := by
  unfold rne
  split_ifs <;> omega

/-- The value `n` is the rounding of `q` when `q` is strictly within one half of `n`. -/
theorem rne_eq_of_lt (q : ℚ) (n : ℤ) (h1 : (n : ℚ) - 1 / 2 < q) (h2 : q < (n : ℚ) + 1 / 2) :
    rne q = n := by
  have h3 := rne_sub_le q
  rw [abs_le] at h3
  have h4 : ((rne q : ℤ) : ℚ) < (n : ℚ) + 1 := by linarith [h3.2]
  have h5 : (n : ℚ) - 1 < ((rne q : ℤ) : ℚ) := by linarith [h3.1]
  have h6 : rne q < n + 1 := by exact_mod_cast h4
  have h7 : n - 1 < rne q := by exact_mod_cast h5
  omega

theorem two_zpow_pos (e : ℤ) : (0 : ℚ) < (2 : ℚ) ^ e := zpow_pos (by norm_num) e

theorem log_two_eq (q : ℚ) (e : ℤ) (h1 : (2 : ℚ) ^ e ≤ |q|) (h2 : |q| < (2 : ℚ) ^ (e + 1)) :
    Int.log 2 |q| = e := by
  have hpos : 0 < |q| := lt_of_lt_of_le (two_zpow_pos e) h1
  have ha : e ≤ Int.log 2 |q| := by
    rw [← Int.zpow_le_iff_le_log (by norm_num) hpos]
    simpa using h1
  have hb : Int.log 2 |q| < e + 1 := by
    rw [← Int.lt_zpow_iff_log_lt (by norm_num) hpos]
    simpa using h2
  omega

theorem log_two_bounds (q : ℚ) (hq : q ≠ 0) :
    (2 : ℚ) ^ (Int.log 2 |q|) ≤ |q| ∧ |q| < (2 : ℚ) ^ (Int.log 2 |q| + 1) := by
  have hpos : 0 < |q| := abs_pos.mpr hq
  constructor
  · simpa using Int.zpow_log_le_self (b := 2) (by norm_num) hpos
  · simpa using Int.lt_zpow_succ_log_self (b := 2) (by norm_num) |q|

/-- Evaluation of `f32` once the binade of `q` is known. -/
theorem f32_eq_of_bounds (q : ℚ) (e : ℤ) (h1 : (2 : ℚ) ^ e ≤ |q|)
    (h2 : |q| < (2 : ℚ) ^ (e + 1)) :
    f32 q = (rne (q / (2 : ℚ) ^ (e - 23)) : ℚ) * (2 : ℚ) ^ (e - 23) := by
  have hq : q ≠ 0 := by
    intro h
    rw [h, abs_zero] at h1
    exact absurd h1 (not_le.mpr (two_zpow_pos e))
  unfold f32
  rw [if_neg hq, log_two_eq q e h1 h2]

/-- A value with at most 24 significant bits is not changed by rounding to binary32. -/
theorem f32_dyadic (m k : ℤ) (hm : |m| < 2 ^ 24) :
    f32 ((m : ℚ) * (2 : ℚ) ^ k) = (m : ℚ) * (2 : ℚ) ^ k := by
  by_cases hm0 : m = 0
  · subst hm0; simp [f32]
  have hq : (m : ℚ) * (2 : ℚ) ^ k ≠ 0 :=
    mul_ne_zero (by exact_mod_cast hm0) (ne_of_gt (two_zpow_pos k))
  obtain ⟨hlo, -⟩ := log_two_bounds _ hq
  set e := Int.log 2 |(m : ℚ) * (2 : ℚ) ^ k| with he
  have habs : |(m : ℚ) * (2 : ℚ) ^ k| = |(m : ℚ)| * (2 : ℚ) ^ k := by
    rw [abs_mul, abs_of_pos (two_zpow_pos k)]
  have hmq : |(m : ℚ)| < (2 : ℚ) ^ (24 : ℤ) := by
    have : ((|m| : ℤ) : ℚ) < ((2 ^ 24 : ℤ) : ℚ) := by exact_mod_cast hm
    rw [Int.cast_abs] at this
    norm_num at this ⊢
    exact this
  have hlt : (2 : ℚ) ^ e < (2 : ℚ) ^ (24 + k) := by
    calc (2 : ℚ) ^ e ≤ |(m : ℚ)| * (2 : ℚ) ^ k := by rw [← habs]; exact hlo
      _ < (2 : ℚ) ^ (24 : ℤ) * (2 : ℚ) ^ k := mul_lt_mul_of_pos_right hmq (two_zpow_pos k)
      _ = (2 : ℚ) ^ (24 + k) := by rw [zpow_add₀ (by norm_num)]
  have hek : e < 24 + k := (zpow_lt_zpow_iff_right₀ (by norm_num)).mp hlt
  have hj : 0 ≤ k - (e - 23) := by omega
  obtain ⟨j, hj2⟩ := Int.eq_ofNat_of_zero_le hj
  have hx : (m : ℚ) * (2 : ℚ) ^ k / (2 : ℚ) ^ (e - 23) = ((m * 2 ^ j : ℤ) : ℚ) := by
    rw [mul_div_assoc, ← zpow_sub₀ (by norm_num), hj2]
    push_cast
    rw [zpow_natCast]
  unfold f32
  rw [if_neg hq, ← he, hx, rne_intCast]
  push_cast
  rw [mul_assoc, ← zpow_natCast, ← hj2, ← zpow_add₀ (by norm_num)]
  congr 2
  omega

theorem f32_intCast (n : ℤ) (hn : |n| < 2 ^ 24) : f32 (n : ℚ) = n := by
  have := f32_dyadic n 0 hn
  simpa using this

theorem f32_half_mul (n : ℤ) (hn : |n| < 2 ^ 24) : f32 ((n : ℚ) * (1 / 2)) = (n : ℚ) * (1 / 2) := by
  have := f32_dyadic n (-1) hn
  have h2 : (2 : ℚ) ^ (-1 : ℤ) = 1 / 2 := by norm_num
  rwa [h2] at this

theorem f32_half : f32 (1 / 2) = 1 / 2 := by
  have := f32_half_mul 1 (by norm_num)
  simpa using this

/-- The relative error of rounding to binary32 is at most `2 ^ (-24)`. -/
theorem f32_error (q : ℚ) : |f32 q - q| ≤ |q| / 2 ^ 24 := by
  by_cases hq : q = 0
  · subst hq; simp [f32]
  obtain ⟨hlo, -⟩ := log_two_bounds q hq
  unfold f32
  rw [if_neg hq]
  set e := Int.log 2 |q| with he
  have hp := two_zpow_pos (e - 23)
  have hx : q = q / (2 : ℚ) ^ (e - 23) * (2 : ℚ) ^ (e - 23) := by
    field_simp
  have h1 : (rne (q / (2 : ℚ) ^ (e - 23)) : ℚ) * (2 : ℚ) ^ (e - 23) - q =
      ((rne (q / (2 : ℚ) ^ (e - 23)) : ℚ) - q / (2 : ℚ) ^ (e - 23)) * (2 : ℚ) ^ (e - 23) := by
    rw [sub_mul, ← hx]
  rw [h1, abs_mul, abs_of_pos hp]
  have h2 := rne_sub_le (q / (2 : ℚ) ^ (e - 23))
  have h3 : (2 : ℚ) ^ (e - 23) = (2 : ℚ) ^ e / 2 ^ 23 := by
    rw [zpow_sub₀ (by norm_num)]; norm_num
  calc |(rne (q / (2 : ℚ) ^ (e - 23)) : ℚ) - q / (2 : ℚ) ^ (e - 23)| * (2 : ℚ) ^ (e - 23)
      ≤ 1 / 2 * (2 : ℚ) ^ (e - 23) := mul_le_mul_of_nonneg_right h2 (le_of_lt hp)
    _ = (2 : ℚ) ^ e / 2 ^ 24 := by rw [h3]; ring
    _ ≤ |q| / 2 ^ 24 := by
      apply div_le_div_of_nonneg_right hlo (by norm_num)


/-- Rounding to binary32 yields a value with at most 24 significant bits. -/
theorem f32_representable (q : ℚ) :
    ∃ m k : ℤ, |m| < 2 ^ 24 ∧ f32 q = (m : ℚ) * (2 : ℚ) ^ k := by
  by_cases hq : q = 0
  · exact ⟨0, 0, by norm_num, by simp [f32, hq]⟩
  obtain ⟨hlo, hhi⟩ := log_two_bounds q hq
  unfold f32
  rw [if_neg hq]
  set e := Int.log 2 |q| with he
  have hp := two_zpow_pos (e - 23)
  set x := q / (2 : ℚ) ^ (e - 23) with hx
  have hxabs : |x| < 2 ^ 24 := by
    rw [hx, abs_div, abs_of_pos hp, div_lt_iff₀ hp]
    calc |q| < (2 : ℚ) ^ (e + 1) := hhi
      _ = 2 ^ 24 * (2 : ℚ) ^ (e - 23) := by
        have : e + 1 = 24 + (e - 23) := by omega
        rw [this, zpow_add₀ (by norm_num)]; norm_num
  have hr := rne_sub_le x
  rw [abs_le] at hr
  rw [abs_lt] at hxabs
  have h1 : ((rne x : ℤ) : ℚ) < 2 ^ 24 + 1 := by linarith [hr.2, hxabs.2]
  have h2 : -(2 ^ 24 : ℚ) - 1 < ((rne x : ℤ) : ℚ) := by linarith [hr.1, hxabs.1]
  have h3 : rne x < 2 ^ 24 + 1 := by exact_mod_cast h1
  have h4 : -(2 ^ 24) - 1 < rne x := by exact_mod_cast h2
  by_cases hbig : |rne x| < 2 ^ 24
  · exact ⟨rne x, e - 23, hbig, rfl⟩
  · have hcases : rne x = 2 ^ 24 ∨ rne x = -(2 ^ 24) := by
      rcases abs_cases (rne x) with ⟨h5, _⟩ | ⟨h5, _⟩ <;> rw [h5] at hbig <;> omega
    have hz : (2 : ℚ) ^ (e + 1) = 2 ^ 24 * (2 : ℚ) ^ (e - 23) := by
      have : e + 1 = 24 + (e - 23) := by omega
      rw [this, zpow_add₀ (by norm_num)]; norm_num
    rcases hcases with h5 | h5
    · refine ⟨1, e + 1, by norm_num, ?_⟩
      rw [h5, hz]; push_cast; ring
    · refine ⟨-1, e + 1, by norm_num, ?_⟩
      rw [h5, hz]; push_cast; ring

/-- Rounding a positive value to binary32 gives a positive value. -/
theorem f32_pos (q : ℚ) (h : 0 < q) : 0 < f32 q := by
  have hq : q ≠ 0 := ne_of_gt h
  obtain ⟨hlo, -⟩ := log_two_bounds q hq
  unfold f32
  rw [if_neg hq]
  set e := Int.log 2 |q| with he
  have hp := two_zpow_pos (e - 23)
  apply mul_pos _ hp
  have hx : (1 : ℚ) ≤ q / (2 : ℚ) ^ (e - 23) := by
    rw [le_div_iff₀ hp, one_mul]
    calc (2 : ℚ) ^ (e - 23) ≤ (2 : ℚ) ^ e := zpow_le_zpow_right₀ (by norm_num) (by omega)
      _ ≤ |q| := hlo
      _ = q := abs_of_pos h
  have h1 : (1 : ℤ) ≤ ⌊q / (2 : ℚ) ^ (e - 23)⌋ := Int.le_floor.mpr (by simpa using hx)
  have h2 := floor_le_rne (q / (2 : ℚ) ^ (e - 23))
  have h3 : (0 : ℤ) < rne (q / (2 : ℚ) ^ (e - 23)) := by omega
  exact_mod_cast h3

/-- The initial blend mask of a pixel is one half when both weights are the same positive
`float`. -/
theorem mask_half (d : ℚ) (hd : 0 < d) : f32 (f32 d / f32 (f32 d + f32 d)) = 1 / 2 := by
  obtain ⟨m, k, hm, hw⟩ := f32_representable d
  have hpos := f32_pos d hd
  have h2 : f32 d + f32 d = (m : ℚ) * (2 : ℚ) ^ (k + 1) := by
    rw [hw, zpow_add₀ (by norm_num)]; ring
  have h3 : f32 (f32 d + f32 d) = f32 d + f32 d := by
    rw [h2]; exact f32_dyadic m (k + 1) hm
  rw [h3]
  have h4 : f32 d / (f32 d + f32 d) = 1 / 2 := by
    field_simp; ring
  rw [h4, f32_half]

theorem i32_intCast (n : ℤ) : i32 (n : ℚ) = n := by
  unfold i32
  split_ifs <;> simp

theorem i32_half (v : ℤ) :
    i32 ((v : ℚ) * (1 / 2)) = if 0 ≤ v then v / 2 else -((-v) / 2) := by
  have h1 : (v : ℚ) * (1 / 2) = (v : ℚ) / ((2 : ℕ) : ℚ) := by push_cast; ring
  have h2 : (v : ℚ) * (1 / 2) = -(((-v : ℤ) : ℚ) / ((2 : ℕ) : ℚ)) := by push_cast; ring
  unfold i32
  by_cases hv : 0 ≤ v
  · have : (0 : ℚ) ≤ (v : ℚ) * (1 / 2) := by
      have : (0 : ℚ) ≤ (v : ℚ) := by exact_mod_cast hv
      linarith
    rw [if_pos this, if_pos hv, h1, Rat.floor_intCast_div_natCast]
    rfl
  · have : ¬ (0 : ℚ) ≤ (v : ℚ) * (1 / 2) := by
      have : (v : ℚ) < 0 := by exact_mod_cast (not_le.mp hv)
      linarith
    rw [if_neg this, if_neg hv, h2, Int.ceil_neg, Rat.floor_intCast_div_natCast]
    rfl

theorem tdiv_two_eq (v : ℤ) : Int.tdiv v 2 = if 0 ≤ v then v / 2 else -((-v) / 2) := by
  split_ifs with hc
  · exact Int.tdiv_eq_ediv hc (by norm_num)
  · rw [← neg_neg v, Int.neg_tdiv, Int.tdiv_eq_ediv (by omega) (by norm_num)]
    simp

theorem tdiv_two_bounds (v : ℤ) (h0 : -65535 ≤ v) (h1 : v ≤ 65535) :
    -32767 ≤ Int.tdiv v 2 ∧ Int.tdiv v 2 ≤ 32767 := by
  rw [tdiv_two_eq]
  split_ifs <;> omega

/-- A band blended with the mask one half: the sample is halved and truncated toward
zero. -/
theorem band_term_half (v : ℤ) (hv : |v| < 2 ^ 24) : band_term v (1 / 2) = Int.tdiv v 2 := by
  unfold band_term
  rw [f32_intCast v hv, f32_half_mul v hv, i32_half, tdiv_two_eq]

theorem u16_sat_intCast (n : ℤ) : u16_sat (n : ℚ) = max (min n 65535) 0 := by
  unfold u16_sat
  have : max (min (n : ℚ) 65535) 0 = ((max (min n 65535) 0 : ℤ) : ℚ) := by
    push_cast; rfl
  rw [this, i32_intCast]

theorem u16_sat_isU16 (q : ℚ) : isU16 (u16_sat q) := by
  unfold u16_sat i32 isU16
  have h0 : (0 : ℚ) ≤ max (min q 65535) 0 := le_max_right _ _
  have h1 : max (min q 65535) 0 ≤ (65535 : ℚ) := max_le (min_le_right _ _) (by norm_num)
  rw [if_pos h0]
  constructor
  · exact Int.floor_nonneg.mpr h0
  · have : ⌊max (min q 65535) 0⌋ ≤ ⌊(65535 : ℚ)⌋ := Int.floor_le_floor h1
    have h2 : ⌊(65535 : ℚ)⌋ = 65535 := Int.floor_eq_iff.mpr ⟨by norm_num, by norm_num⟩
    omega


/-! ## Reduction domains: what an update definition leaves behind -/

theorem rdom_row_eq {K : Type} [DecidableEq K] (site : ℤ → ℤ → K) (val : ℤ → ℤ → ℤ)
    (ry : ℕ) (k : K) (v : ℤ) (n : ℕ) (o : K → ℤ)
    (hv : ∀ rx : ℕ, rx < n → site rx ry = k → val rx ry = v)
    (h : o k = v ∨ ∃ rx : ℕ, rx < n ∧ site rx ry = k) :
    (List.range n).foldl
      (fun o2 (rx : ℕ) => Function.update o2 (site (rx : ℤ) (ry : ℤ)) (val (rx : ℤ) (ry : ℤ)))
      o k = v := by
  induction n with
  | zero =>
    rcases h with h | ⟨rx, hrx, _⟩
    · simpa using h
    · omega
  | succ n ih =>
    rw [List.range_succ, List.foldl_append]
    simp only [List.foldl_cons, List.foldl_nil]
    by_cases hk : site n ry = k
    · rw [← hk, Function.update_same]
      exact hv n (Nat.lt_succ_self n) hk
    · rw [Function.update_noteq (Ne.symm hk)]
      apply ih (fun rx hrx hs => hv rx (Nat.lt_succ_of_lt hrx) hs)
      rcases h with h | ⟨rx, hrx, hs⟩
      · exact Or.inl h
      · right
        refine ⟨rx, ?_, hs⟩
        rcases Nat.lt_succ_iff_lt_or_eq.mp hrx with h1 | h1
        · exact h1
        · subst h1; exact absurd hs hk

/-- After an update definition, a site holds `v` as soon as every point update that hits
the site writes `v` and either the site held `v` before or some point update hits it. -/
theorem rdomUpdate_eq {K : Type} [DecidableEq K] (nx ny : ℕ) (site : ℤ → ℤ → K)
    (val : ℤ → ℤ → ℤ) (out : K → ℤ) (k : K) (v : ℤ)
    (hv : ∀ rx ry : ℕ, rx < nx → ry < ny → site rx ry = k → val rx ry = v)
    (h : out k = v ∨ ∃ rx ry : ℕ, rx < nx ∧ ry < ny ∧ site rx ry = k) :
    rdomUpdate nx ny site val out k = v := by
  unfold rdomUpdate
  induction ny generalizing out with
  | zero =>
    rcases h with h | ⟨rx, ry, _, hry, _⟩
    · simpa using h
    · omega
  | succ n ih =>
    rw [List.range_succ, List.foldl_append]
    simp only [List.foldl_cons, List.foldl_nil]
    apply rdom_row_eq site val n k v nx _ (fun rx hrx hs => hv rx n hrx (Nat.lt_succ_self n) hs)
    by_cases hex : ∃ rx : ℕ, rx < nx ∧ site rx n = k
    · exact Or.inr hex
    · left
      apply ih out (fun rx ry hrx hry hs => hv rx ry hrx (Nat.lt_succ_of_lt hry) hs)
      rcases h with h | ⟨rx, ry, hrx, hry, hs⟩
      · exact Or.inl h
      · right
        refine ⟨rx, ry, hrx, ?_, hs⟩
        rcases Nat.lt_succ_iff_lt_or_eq.mp hry with h1 | h1
        · exact h1
        · subst h1; exact absurd ⟨rx, hrx, hs⟩ hex

/-- An update definition leaves every site it does not hit unchanged. -/
theorem rdomUpdate_unwritten {K : Type} [DecidableEq K] (nx ny : ℕ) (site : ℤ → ℤ → K)
    (val : ℤ → ℤ → ℤ) (out : K → ℤ) (k : K)
    (hs : ∀ rx ry : ℕ, rx < nx → ry < ny → site rx ry ≠ k) :
    rdomUpdate nx ny site val out k = out k :=
  rdomUpdate_eq nx ny site val out k (out k)
    (fun rx ry hrx hry h => absurd h (hs rx ry hrx hry)) (Or.inl rfl)

/-- An update definition whose sites are distinct leaves `val rx ry` at `site rx ry`. -/
theorem rdomUpdate_written {K : Type} [DecidableEq K] (nx ny : ℕ) (site : ℤ → ℤ → K)
    (val : ℤ → ℤ → ℤ) (out : K → ℤ) (rx ry : ℕ) (hrx : rx < nx) (hry : ry < ny)
    (hinj : ∀ rx2 ry2 : ℕ, site rx2 ry2 = site rx ry → rx2 = rx ∧ ry2 = ry) :
    rdomUpdate nx ny site val out (site rx ry) = val rx ry := by
  apply rdomUpdate_eq
  · intro rx2 ry2 _ _ h
    obtain ⟨h1, h2⟩ := hinj rx2 ry2 h
    rw [h1, h2]
  · exact Or.inr ⟨rx, ry, hrx, hry, rfl⟩

/-- For a non-negative `int`, `width / 2` in C++ is the floor of the half. -/
theorem halfExtent_cast (width : ℤ) (h : 0 ≤ width) : (halfExtent width : ℤ) = width / 2 := by
  unfold halfExtent
  rw [Int.tdiv_eq_ediv h (by norm_num), Int.toNat_of_nonneg (by omega)]

/-- Every coordinate below `2 * (width / 2)` belongs to exactly one cell of the reduction
domain, at the offset given by its parity. -/
theorem cell_of_coord (width x p : ℤ) (hx0 : 0 ≤ x) (hxw : x < 2 * (width / 2))
    (hp : x % 2 = p) : ∃ rx : ℕ, rx < halfExtent width ∧ (rx : ℤ) * 2 + p = x := by
  have hw : 0 ≤ width := by omega
  have hc := halfExtent_cast width hw
  refine ⟨(x / 2).toNat, ?_, ?_⟩
  · have h1 : ((x / 2).toNat : ℤ) = x / 2 := Int.toNat_of_nonneg (by omega)
    have h2 : ((x / 2).toNat : ℤ) < (halfExtent width : ℤ) := by omega
    exact_mod_cast h2
  · rw [Int.toNat_of_nonneg (by omega)]; omega

/-! ## Demosaic kernels -/

set_option maxRecDepth 100000 in
/-- C2: the 25 weights of `f0`, `f1` and `f2` sum to their divisors 8, 16 and 16, but the
weights of `f3` as written in the source sum to 17 while its divisor `f3_sum` is 16; on a
mosaic that is 16 everywhere the intermediate `d3` is therefore 17. -/
theorem demosaic_kernel_sums :
    kernel_sum f0 = f0_sum ∧ kernel_sum f1 = f1_sum ∧ kernel_sum f2 = f2_sum ∧
      kernel_sum f3 = 17 ∧ f3_sum = 16 ∧ kernel_sum f3 ≠ f3_sum ∧
      f3 (-2) 0 = -3 ∧ f3 2 0 = -2 ∧
      d3 (fun _ _ => 16) 4 4 0 0 = 17 := by
  decide

/-! ## Brightening and packing -/

/-- C8: for every gain with `0 ≤ gain ≤ 65537` and every 16-bit grayscale value the
unsigned 32-bit product does not wrap, `brighter` is `min(65535, gain * grayscale)`, it is
not below the grayscale value when `gain ≥ 1`, and it is 65535 as soon as the product
reaches 65535. -/
theorem brighter_saturates (gain : ℤ) (gray : ℤ → ℤ → ℤ) (x y : ℤ)
    (hg0 : 0 ≤ gain) (hg1 : gain ≤ 65537) (hu : isU16 (gray x y)) :
    wrap_u32 (gain * gray x y) = gain * gray x y ∧
      brighter gain gray x y = min 65535 (gain * gray x y) ∧
      (1 ≤ gain → gray x y ≤ brighter gain gray x y) ∧
      (65535 ≤ gain * gray x y → brighter gain gray x y = 65535) := by
  obtain ⟨h0, h1⟩ := hu
  have hp0 : 0 ≤ gain * gray x y := mul_nonneg hg0 h0
  have hp1 : gain * gray x y ≤ 65537 * 65535 := mul_le_mul hg1 h1 h0 (by norm_num)
  have hmono : 1 ≤ gain → gray x y ≤ gain * gray x y := fun h =>
    le_mul_of_one_le_left h0 h
  unfold brighter u16_sat_int wrap_u32
  generalize gain * gray x y = p at *
  refine ⟨by omega, by omega, fun h => ?_, fun h => by omega⟩
  have := hmono h
  omega

/-- The reference gain 4 of `finish` on the brightest grayscale value: the product is
262140 and `brighter` is 65535. -/
theorem brighter_saturates_witness :
    brighter 4 (fun _ _ => 65535) 0 0 = min 65535 (4 * 65535) :=
  (brighter_saturates 4 (fun _ _ => 65535) 0 0 (by decide) (by decide) (by decide)).2.1

/-- C9: for every 16-bit sample, `u8bit_interleaved` yields `floor(input(x,y,c) / 256)` at
`(c, x, y)`; the value lies in `[0, 255]`, so `u8_sat` does not change it; 0 maps to 0,
65535 maps to 255, and the map is monotone in the sample. -/
theorem u8bit_interleaved_floor (input : ℤ → ℤ → ℤ → ℤ) (c x y : ℤ)
    (hu : isU16 (input x y c)) :
    u8bit_interleaved input c x y = input x y c / 256 ∧
      u8_sat (input x y c / 256) = input x y c / 256 ∧
      0 ≤ u8bit_interleaved input c x y ∧ u8bit_interleaved input c x y ≤ 255 ∧
      (input x y c = 0 → u8bit_interleaved input c x y = 0) ∧
      (input x y c = 65535 → u8bit_interleaved input c x y = 255) ∧
      (∀ input2 : ℤ → ℤ → ℤ → ℤ, isU16 (input2 x y c) → input x y c ≤ input2 x y c →
        u8bit_interleaved input c x y ≤ u8bit_interleaved input2 c x y) := by
  obtain ⟨h0, h1⟩ := hu
  unfold u8bit_interleaved u8_sat
  refine ⟨by omega, by omega, by omega, by omega, fun h => by omega, fun h => by omega, ?_⟩
  intro input2 hu2 hle
  obtain ⟨h2, h3⟩ := hu2
  omega

/-- The packer on the image whose sample at `(x, y, c)` is `65535` for `c = 0` and `0`
otherwise. -/
theorem u8bit_interleaved_floor_witness :
    u8bit_interleaved (fun _ _ c => if c = 0 then 65535 else 0) 0 3 5 = 255 :=
  ((u8bit_interleaved_floor (fun _ _ c => if c = 0 then 65535 else 0) 0 3 5
    (by decide)).2.2.2.2.2.1) (by decide)

/-! ## Demosaic: which source feeds which site -/

theorem demosaic_native (input : ℤ → ℤ → ℤ) (width height x y : ℤ) :
    (x % 2 = 1 ∧ y % 2 = 0 → demosaic input width height x y 1 = input x y) ∧
      (x % 2 = 0 ∧ y % 2 = 1 → demosaic input width height x y 1 = input x y) ∧
      (x % 2 = 0 ∧ y % 2 = 0 → demosaic input width height x y 0 = input x y) ∧
      (x % 2 = 1 ∧ y % 2 = 1 → demosaic input width height x y 2 = input x y) := by
  unfold demosaic demosaic_updates
  simp only [List.foldl_cons, List.foldl_nil]
  refine ⟨?_, ?_, ?_, ?_⟩ <;> rintro ⟨hx, hy⟩ <;>
    (repeat (rw [rdomUpdate_unwritten _ _ _ _ _ _ (by
      intro rx ry _ _ hs
      simp only [Prod.mk.injEq] at hs
      omega)]))

/-- C3: at every pixel, also outside the image, the demosaic output keeps the mosaic sample
in the channel the site natively records: green at (odd, even) and (even, odd), red at
(even, even), blue at (odd, odd). -/
theorem demosaic_preserves_native (input : ℤ → ℤ → ℤ) (width height x y : ℤ) :
    (x % 2 = 1 ∧ y % 2 = 0 → demosaic input width height x y 1 = input x y) ∧
      (x % 2 = 0 ∧ y % 2 = 1 → demosaic input width height x y 1 = input x y) ∧
      (x % 2 = 0 ∧ y % 2 = 0 → demosaic input width height x y 0 = input x y) ∧
      (x % 2 = 1 ∧ y % 2 = 1 → demosaic input width height x y 2 = input x y) :=
  demosaic_native input width height x y

/-- The green sample of the mosaic `x + 10 * y` at the green site `(1, 0)` of a 4x4 image. -/
theorem demosaic_preserves_native_witness :
    demosaic (fun x y => x + 10 * y) 4 4 1 0 1 = 1 :=
  (demosaic_preserves_native (fun x y => x + 10 * y) 4 4 1 0).1 ⟨by decide, by decide⟩

/-- C4: for even width and height and every pixel of the image, the interpolated channels
are the intermediates of the same pixel given by the table: at (even, even) green is `d0`
and blue is `d3`; at (odd, even) red is `d1` and blue is `d2`; at (even, odd) red is `d2`
and blue is `d1`; at (odd, odd) red is `d3` and green is `d0`; at the two green sites green
is the mosaic sample. -/
theorem demosaic_source_table (input : ℤ → ℤ → ℤ) (width height x y : ℤ)
    (hw : width % 2 = 0) (hh : height % 2 = 0)
    (hx0 : 0 ≤ x) (hxw : x < width) (hy0 : 0 ≤ y) (hyh : y < height) :
    (x % 2 = 0 ∧ y % 2 = 0 →
        demosaic input width height x y 1 = d0 input width height x y ∧
        demosaic input width height x y 2 = d3 input width height x y) ∧
      (x % 2 = 1 ∧ y % 2 = 0 →
        demosaic input width height x y 0 = d1 input width height x y ∧
        demosaic input width height x y 2 = d2 input width height x y) ∧
      (x % 2 = 0 ∧ y % 2 = 1 →
        demosaic input width height x y 0 = d2 input width height x y ∧
        demosaic input width height x y 2 = d1 input width height x y) ∧
      (x % 2 = 1 ∧ y % 2 = 1 →
        demosaic input width height x y 0 = d3 input width height x y ∧
        demosaic input width height x y 1 = d0 input width height x y) ∧
      (x % 2 ≠ y % 2 → demosaic input width height x y 1 = input x y) := by
  have hxc : ∀ p : ℤ, x % 2 = p → ∃ rx : ℕ, rx < halfExtent width ∧ (rx : ℤ) * 2 + p = x :=
    fun p hp => cell_of_coord width x p hx0 (by omega) hp
  have hyc : ∀ p : ℤ, y % 2 = p → ∃ ry : ℕ, ry < halfExtent height ∧ (ry : ℤ) * 2 + p = y :=
    fun p hp => cell_of_coord height y p hy0 (by omega) hp
  have hnat := demosaic_native input width height x y
  refine ⟨?_, ?_, ?_, ?_, ?_⟩
  · rintro ⟨hx, hy⟩
    obtain ⟨rx, hrx, ex⟩ := hxc 0 hx
    obtain ⟨ry, hry, ey⟩ := hyc 0 hy
    simp only [add_zero] at ex ey
    subst ex ey
    unfold demosaic demosaic_updates
    simp only [List.foldl_cons, List.foldl_nil]
    constructor
    · repeat (rw [rdomUpdate_unwritten _ _ _ _ _ _ (by
        intro rx ry _ _ hs
        simp only [Prod.mk.injEq] at hs
        omega)])
      exact rdomUpdate_written _ _ (fun rx ry => ((rx * 2, ry * 2, 1) : ℤ × ℤ × ℤ)) _ _ rx ry
        hrx hry (by intro a b hs; simp only [Prod.mk.injEq] at hs; omega)
    · exact rdomUpdate_written _ _ (fun rx ry => ((rx * 2, ry * 2, 2) : ℤ × ℤ × ℤ)) _ _ rx ry
        hrx hry (by intro a b hs; simp only [Prod.mk.injEq] at hs; omega)
  · rintro ⟨hx, hy⟩
    obtain ⟨rx, hrx, ex⟩ := hxc 1 hx
    obtain ⟨ry, hry, ey⟩ := hyc 0 hy
    simp only [add_zero] at ey
    subst ex ey
    unfold demosaic demosaic_updates
    simp only [List.foldl_cons, List.foldl_nil]
    constructor
    · repeat (rw [rdomUpdate_unwritten _ _ _ _ _ _ (by
        intro rx ry _ _ hs
        simp only [Prod.mk.injEq] at hs
        omega)])
      exact rdomUpdate_written _ _ (fun rx ry => ((rx * 2 + 1, ry * 2, 0) : ℤ × ℤ × ℤ)) _ _
        rx ry hrx hry (by intro a b hs; simp only [Prod.mk.injEq] at hs; omega)
    · repeat (rw [rdomUpdate_unwritten _ _ _ _ _ _ (by
        intro rx ry _ _ hs
        simp only [Prod.mk.injEq] at hs
        omega)])
      exact rdomUpdate_written _ _ (fun rx ry => ((rx * 2 + 1, ry * 2, 2) : ℤ × ℤ × ℤ)) _ _
        rx ry hrx hry (by intro a b hs; simp only [Prod.mk.injEq] at hs; omega)
  · rintro ⟨hx, hy⟩
    obtain ⟨rx, hrx, ex⟩ := hxc 0 hx
    obtain ⟨ry, hry, ey⟩ := hyc 1 hy
    simp only [add_zero] at ex
    subst ex ey
    unfold demosaic demosaic_updates
    simp only [List.foldl_cons, List.foldl_nil]
    constructor
    · repeat (rw [rdomUpdate_unwritten _ _ _ _ _ _ (by
        intro rx ry _ _ hs
        simp only [Prod.mk.injEq] at hs
        omega)])
      exact rdomUpdate_written _ _ (fun rx ry => ((rx * 2, ry * 2 + 1, 0) : ℤ × ℤ × ℤ)) _ _
        rx ry hrx hry (by intro a b hs; simp only [Prod.mk.injEq] at hs; omega)
    · repeat (rw [rdomUpdate_unwritten _ _ _ _ _ _ (by
        intro rx ry _ _ hs
        simp only [Prod.mk.injEq] at hs
        omega)])
      exact rdomUpdate_written _ _ (fun rx ry => ((rx * 2, ry * 2 + 1, 2) : ℤ × ℤ × ℤ)) _ _
        rx ry hrx hry (by intro a b hs; simp only [Prod.mk.injEq] at hs; omega)
  · rintro ⟨hx, hy⟩
    obtain ⟨rx, hrx, ex⟩ := hxc 1 hx
    obtain ⟨ry, hry, ey⟩ := hyc 1 hy
    subst ex ey
    unfold demosaic demosaic_updates
    simp only [List.foldl_cons, List.foldl_nil]
    constructor
    · repeat (rw [rdomUpdate_unwritten _ _ _ _ _ _ (by
        intro rx ry _ _ hs
        simp only [Prod.mk.injEq] at hs
        omega)])
      exact rdomUpdate_written _ _ (fun rx ry => ((rx * 2 + 1, ry * 2 + 1, 0) : ℤ × ℤ × ℤ))
        _ _ rx ry hrx hry (by intro a b hs; simp only [Prod.mk.injEq] at hs; omega)
    · repeat (rw [rdomUpdate_unwritten _ _ _ _ _ _ (by
        intro rx ry _ _ hs
        simp only [Prod.mk.injEq] at hs
        omega)])
      exact rdomUpdate_written _ _ (fun rx ry => ((rx * 2 + 1, ry * 2 + 1, 1) : ℤ × ℤ × ℤ))
        _ _ rx ry hrx hry (by intro a b hs; simp only [Prod.mk.injEq] at hs; omega)
  · intro hne
    rcases Int.emod_two_eq_zero_or_one x with hx | hx <;>
      rcases Int.emod_two_eq_zero_or_one y with hy | hy
    · omega
    · exact hnat.2.1 ⟨hx, hy⟩
    · exact hnat.1 ⟨hx, hy⟩
    · omega

/-- The table at the red site `(2, 0)` of a 4x4 mosaic: green is `d0` and blue is `d3`. -/
theorem demosaic_source_table_witness :
    demosaic (fun x y => x + 10 * y) 4 4 2 0 1 = d0 (fun x y => x + 10 * y) 4 4 2 0 ∧
      demosaic (fun x y => x + 10 * y) 4 4 2 0 2 = d3 (fun x y => x + 10 * y) 4 4 2 0 :=
  (demosaic_source_table (fun x y => x + 10 * y) 4 4 2 0 (by decide) (by decide)
    (by decide) (by decide) (by decide) (by decide)).1 ⟨by decide, by decide⟩

/-! ## Black and white point -/

/-- C5 fails as stated: with black point 0 and white point 11, a pixel equal to the white
point is mapped to 65534.  The `float` factor `65535.f / 11` is 5957.72705078125, its
product with 11 rounds to 65534.99609375, and `u16_sat` truncates. -/
theorem black_white_point_white_counterexample :
    black_white_point (fun _ _ => 11) 0 11 0 0 = 65534 ∧
      black_white_point (fun _ _ => 11) 0 11 0 0 ≠ 65535 := by
  have h11 : f32 (((11 - 0 : ℤ)) : ℚ) = 11 := by
    have := f32_intCast 11 (by norm_num)
    simpa using this
  have hwf : f32 (65535 / 11) = 12201425 / 2048 := by
    rw [f32_eq_of_bounds (65535 / 11) 12 (by norm_num [abs_of_pos]) (by norm_num [abs_of_pos])]
    rw [rne_eq_of_lt _ 12201425 (by norm_num) (by norm_num)]
    norm_num
  have hpr : f32 (11 * (12201425 / 2048)) = 16776959 / 256 := by
    rw [f32_eq_of_bounds (11 * (12201425 / 2048)) 15 (by norm_num [abs_of_pos])
      (by norm_num [abs_of_pos])]
    rw [rne_eq_of_lt _ 16776959 (by norm_num) (by norm_num)]
    norm_num
  have hv : black_white_point (fun _ _ => 11) 0 11 0 0 = 65534 := by
    unfold black_white_point
    rw [if_neg (by decide)]
    simp only [h11, hwf, hpr]
    unfold u16_sat i32
    norm_num [Int.floor_eq_iff]
  rw [hv]
  exact ⟨rfl, by decide⟩

/-- C5, amended: for `0 ≤ bp < wp ≤ 65535`, `black_white_point` maps a pixel equal to `bp`
to exactly 0 and a pixel equal to `wp` to 65534 or 65535. -/
theorem black_white_point_endpoints (input : ℤ → ℤ → ℤ) (bp wp x y : ℤ)
    (h0 : 0 ≤ bp) (h1 : bp < wp) (h2 : wp ≤ 65535) :
    (input x y = bp → black_white_point input bp wp x y = 0) ∧
      (input x y = wp → black_white_point input bp wp x y = 65534 ∨
        black_white_point input bp wp x y = 65535) := by
  have hne : wp ≠ bp := by omega
  constructor
  · intro h
    unfold black_white_point
    rw [if_neg hne]
    have hz : f32 0 = 0 := by simp [f32]
    simp only [h, sub_self, Int.cast_zero, hz, zero_mul]
    have := u16_sat_intCast 0
    simpa using this
  intro h
  unfold black_white_point
  rw [if_neg hne]
  simp only [h]
  have hd : |wp - bp| < 2 ^ 24 := by rw [abs_lt]; constructor <;> omega
  rw [f32_intCast _ hd]
  set d : ℚ := ((wp - bp : ℤ) : ℚ) with hdef
  have hd1 : (1 : ℚ) ≤ d := by
    have : (1 : ℤ) ≤ wp - bp := by omega
    rw [hdef]; exact_mod_cast this
  have hdpos : (0 : ℚ) < d := by linarith
  set wf := f32 (65535 / d) with hwf
  have e1 := f32_error (65535 / d)
  rw [← hwf, abs_of_pos (div_pos (by norm_num) hdpos)] at e1
  have e2 : |d * wf - 65535| ≤ 65535 / 2 ^ 24 := by
    have : d * wf - 65535 = d * (wf - 65535 / d) := by field_simp; ring
    rw [this, abs_mul, abs_of_pos hdpos]
    calc d * |wf - 65535 / d| ≤ d * (65535 / d / 2 ^ 24) :=
          mul_le_mul_of_nonneg_left e1 (le_of_lt hdpos)
      _ = 65535 / 2 ^ 24 := by field_simp; ring
  have e3 := f32_error (d * wf)
  rw [abs_le] at e2 e3
  have hp : |d * wf| ≤ 65536 := by
    rw [abs_le]; constructor <;> norm_num at e2 ⊢ <;> linarith [e2.1, e2.2]
  have e4 : |d * wf| / 2 ^ 24 ≤ 65536 / 2 ^ 24 :=
    div_le_div_of_nonneg_right hp (by norm_num)
  set pr := f32 (d * wf) with hpr
  have hlo : (65534 : ℚ) < pr := by norm_num at e2 e3 e4 ⊢; linarith [e2.1, e3.1]
  have hhi : pr < 65536 := by norm_num at e2 e3 e4 ⊢; linarith [e2.2, e3.2]
  unfold u16_sat i32
  have hnn : (0 : ℚ) ≤ max (min pr 65535) 0 := le_max_right _ _
  rw [if_pos hnn]
  by_cases hc : pr < 65535
  · left
    rw [Int.floor_eq_iff]
    have hm : max (min pr 65535) 0 = pr := by
      rw [min_eq_left (le_of_lt hc), max_eq_left (by linarith)]
    rw [hm]
    constructor <;> norm_num <;> linarith
  · right
    rw [Int.floor_eq_iff]
    have hm : max (min pr 65535) 0 = 65535 := by
      rw [min_eq_right (not_lt.mp hc), max_eq_left (by norm_num)]
    rw [hm]
    constructor <;> norm_num

/-- The endpoints for black point 64 and white point 1023 on a plane that is 64 in the
first row and 1023 elsewhere. -/
theorem black_white_point_endpoints_witness :
    black_white_point (fun _ y => if y = 0 then 64 else 1023) 64 1023 0 0 = 0 ∧
      (black_white_point (fun _ y => if y = 0 then 64 else 1023) 64 1023 0 1 = 65534 ∨
        black_white_point (fun _ y => if y = 0 then 64 else 1023) 64 1023 0 1 = 65535) :=
  ⟨(black_white_point_endpoints (fun _ y => if y = 0 then 64 else 1023) 64 1023 0 0
      (by decide) (by decide) (by decide)).1 (by decide),
    (black_white_point_endpoints (fun _ y => if y = 0 then 64 else 1023) 64 1023 0 1
      (by decide) (by decide) (by decide)).2 (by decide)⟩

/-- C6: with black point 0 and white point 65535, `black_white_point` returns every
16-bit pixel unchanged. -/
theorem black_white_point_identity (input : ℤ → ℤ → ℤ) (x y : ℤ) (hu : isU16 (input x y)) :
    black_white_point input 0 65535 x y = input x y := by
  obtain ⟨h0, h1⟩ := hu
  have hb : (65535 : ℚ) / ((65535 : ℤ) : ℚ) = ((1 : ℤ) : ℚ) := by norm_num
  have hc : |input x y| < 2 ^ 24 := by rw [abs_lt]; constructor <;> omega
  unfold black_white_point
  rw [if_neg (by decide)]
  simp only [sub_zero]
  rw [f32_intCast 65535 (by norm_num), hb, f32_intCast 1 (by norm_num), Int.cast_one, mul_one,
    f32_intCast _ hc, f32_intCast _ hc, u16_sat_intCast]
  omega

/-- The identity normalisation at the pixel value 40000. -/
theorem black_white_point_identity_witness :
    black_white_point (fun _ _ => 40000) 0 65535 2 3 = 40000 :=
  black_white_point_identity (fun _ _ => 40000) 2 3 (by decide)

/-! ## White balance -/

theorem white_balance_at (input : ℤ → ℤ → ℤ) (width height : ℤ) (wb : WhiteBalance)
    (x y : ℤ) (hw : width % 2 = 0) (hh : height % 2 = 0)
    (hx0 : 0 ≤ x) (hxw : x < width) (hy0 : 0 ≤ y) (hyh : y < height) :
    white_balance input width height wb x y =
      u16_sat (f32 (bayer_gain wb x y * f32 (input x y))) := by
  have hxc : ∀ p : ℤ, x % 2 = p → ∃ rx : ℕ, rx < halfExtent width ∧ (rx : ℤ) * 2 + p = x :=
    fun p hp => cell_of_coord width x p hx0 (by omega) hp
  have hyc : ∀ p : ℤ, y % 2 = p → ∃ ry : ℕ, ry < halfExtent height ∧ (ry : ℤ) * 2 + p = y :=
    fun p hp => cell_of_coord height y p hy0 (by omega) hp
  rcases Int.emod_two_eq_zero_or_one x with hx | hx <;>
    rcases Int.emod_two_eq_zero_or_one y with hy | hy
  · obtain ⟨rx, hrx, ex⟩ := hxc 0 hx
    obtain ⟨ry, hry, ey⟩ := hyc 0 hy
    simp only [add_zero] at ex ey
    have hg : bayer_gain wb x y = wb.r := by
      unfold bayer_gain; rw [if_pos ⟨hx, hy⟩]
    rw [hg]
    subst ex ey
    unfold white_balance
    repeat (rw [rdomUpdate_unwritten _ _ _ _ _ _ (by
      intro a b _ _ hs
      simp only [wb_site, Prod.mk.injEq] at hs
      omega)])
    exact rdomUpdate_written _ _ (wb_site 0) _ _ rx ry hrx hry
      (by intro a b hs; simp only [wb_site, Prod.mk.injEq] at hs; omega)
  · obtain ⟨rx, hrx, ex⟩ := hxc 0 hx
    obtain ⟨ry, hry, ey⟩ := hyc 1 hy
    simp only [add_zero] at ex
    have hg : bayer_gain wb x y = wb.g1 := by
      unfold bayer_gain
      rw [if_neg (by omega), if_neg (by omega), if_pos ⟨hx, hy⟩]
    rw [hg]
    subst ex ey
    unfold white_balance
    repeat (rw [rdomUpdate_unwritten _ _ _ _ _ _ (by
      intro a b _ _ hs
      simp only [wb_site, Prod.mk.injEq] at hs
      omega)])
    exact rdomUpdate_written _ _ (wb_site 2) _ _ rx ry hrx hry
      (by intro a b hs; simp only [wb_site, Prod.mk.injEq] at hs; omega)
  · obtain ⟨rx, hrx, ex⟩ := hxc 1 hx
    obtain ⟨ry, hry, ey⟩ := hyc 0 hy
    simp only [add_zero] at ey
    have hg : bayer_gain wb x y = wb.g0 := by
      unfold bayer_gain
      rw [if_neg (by omega), if_pos ⟨hx, hy⟩]
    rw [hg]
    subst ex ey
    unfold white_balance
    repeat (rw [rdomUpdate_unwritten _ _ _ _ _ _ (by
      intro a b _ _ hs
      simp only [wb_site, Prod.mk.injEq] at hs
      omega)])
    exact rdomUpdate_written _ _ (wb_site 1) _ _ rx ry hrx hry
      (by intro a b hs; simp only [wb_site, Prod.mk.injEq] at hs; omega)
  · obtain ⟨rx, hrx, ex⟩ := hxc 1 hx
    obtain ⟨ry, hry, ey⟩ := hyc 1 hy
    have hg : bayer_gain wb x y = wb.b := by
      unfold bayer_gain
      rw [if_neg (by omega), if_neg (by omega), if_neg (by omega)]
    rw [hg]
    subst ex ey
    unfold white_balance
    exact rdomUpdate_written _ _ (wb_site 3) _ _ rx ry hrx hry
      (by intro a b hs; simp only [wb_site, Prod.mk.injEq] at hs; omega)

theorem wb_site_unique (width height x y : ℤ) (hw : width % 2 = 0) (hh : height % 2 = 0)
    (hx0 : 0 ≤ x) (hxw : x < width) (hy0 : 0 ≤ y) (hyh : y < height) :
    ∃! i : Fin 4, ∃ rx ry : ℕ,
      rx < halfExtent width ∧ ry < halfExtent height ∧ wb_site i rx ry = (x, y) := by
  obtain ⟨rx, hrx, ex⟩ := cell_of_coord width x (x % 2) hx0 (by omega) rfl
  obtain ⟨ry, hry, ey⟩ := cell_of_coord height y (y % 2) hy0 (by omega) rfl
  rcases Int.emod_two_eq_zero_or_one x with hx | hx <;>
    rcases Int.emod_two_eq_zero_or_one y with hy | hy <;>
    rw [hx] at ex <;> rw [hy] at ey
  · refine ⟨0, ⟨rx, ry, hrx, hry, by simp only [wb_site, Prod.mk.injEq]; omega⟩, ?_⟩
    rintro j ⟨a, b, -, -, hs⟩
    fin_cases j <;> simp only [wb_site, Prod.mk.injEq] at hs <;> first | rfl | omega
  · refine ⟨2, ⟨rx, ry, hrx, hry, by simp only [wb_site, Prod.mk.injEq]; omega⟩, ?_⟩
    rintro j ⟨a, b, -, -, hs⟩
    fin_cases j <;> simp only [wb_site, Prod.mk.injEq] at hs <;> first | rfl | omega
  · refine ⟨1, ⟨rx, ry, hrx, hry, by simp only [wb_site, Prod.mk.injEq]; omega⟩, ?_⟩
    rintro j ⟨a, b, -, -, hs⟩
    fin_cases j <;> simp only [wb_site, Prod.mk.injEq] at hs <;> first | rfl | omega
  · refine ⟨3, ⟨rx, ry, hrx, hry, by simp only [wb_site, Prod.mk.injEq]; omega⟩, ?_⟩
    rintro j ⟨a, b, -, -, hs⟩
    fin_cases j <;> simp only [wb_site, Prod.mk.injEq] at hs <;> first | rfl | omega

/-- C7: for even width and height and every pixel of the image, `white_balance` outputs
the `float` product of the gain of the Bayer position and the input, saturated to
`[0, 65535]`; the pixel is the site of exactly one of the four updates; and with all four
gains equal to 1 a 16-bit input is returned unchanged. -/
theorem white_balance_gains (input : ℤ → ℤ → ℤ) (width height : ℤ) (wb : WhiteBalance)
    (x y : ℤ) (hw : width % 2 = 0) (hh : height % 2 = 0)
    (hx0 : 0 ≤ x) (hxw : x < width) (hy0 : 0 ≤ y) (hyh : y < height) :
    white_balance input width height wb x y =
        u16_sat (f32 (bayer_gain wb x y * f32 (input x y))) ∧
      isU16 (white_balance input width height wb x y) ∧
      (∃! i : Fin 4, ∃ rx ry : ℕ,
        rx < halfExtent width ∧ ry < halfExtent height ∧ wb_site i rx ry = (x, y)) ∧
      (wb.r = 1 → wb.g0 = 1 → wb.g1 = 1 → wb.b = 1 → isU16 (input x y) →
        white_balance input width height wb x y = input x y) := by
  have hmain := white_balance_at input width height wb x y hw hh hx0 hxw hy0 hyh
  refine ⟨hmain, ?_, wb_site_unique width height x y hw hh hx0 hxw hy0 hyh, ?_⟩
  · rw [hmain]; exact u16_sat_isU16 _
  · intro hr hg0 hg1 hb hu
    obtain ⟨h0, h1⟩ := hu
    have hc : |input x y| < 2 ^ 24 := by rw [abs_lt]; constructor <;> omega
    have hg : bayer_gain wb x y = 1 := by
      unfold bayer_gain
      split_ifs <;> assumption
    rw [hmain, hg, one_mul, f32_intCast _ hc, f32_intCast _ hc, u16_sat_intCast]
    omega

/-- White balance with unit gains on a 4x4 image at the blue site `(3, 1)`. -/
theorem white_balance_gains_witness :
    white_balance (fun x y => 1000 * x + y) 4 4 ⟨1, 1, 1, 1⟩ 3 1 = 3001 :=
  (white_balance_gains (fun x y => 1000 * x + y) 4 4 ⟨1, 1, 1, 1⟩ 3 1 (by decide) (by decide)
    (by decide) (by decide) (by decide) (by decide)).2.2.2 rfl rfl rfl rfl (by decide)

/-! ## Pyramid blender on two copies of one image -/

theorem wrap_i32_of_bounds (n : ℤ) (h0 : -2147483648 ≤ n) (h1 : n < 2147483648) :
    wrap_i32 n = n := by
  unfold wrap_i32; omega

theorem repeat_edge_isU16 (img : ℤ → ℤ → ℤ) (width height : ℤ) (hw : 0 < width)
    (hh : 0 < height)
    (himg : ∀ a b : ℤ, 0 ≤ a → a < width → 0 ≤ b → b < height → isU16 (img a b))
    (a b : ℤ) : isU16 (repeat_edge img width height a b) := by
  unfold repeat_edge
  apply himg <;> omega

/-- What `combine` computes when both inputs are the same 16-bit image, the mask blur
keeps the constant mask one half and the weights are positive: both masks are one half on
every layer, and the accumulator receives the band `im - G1`, the band `G1 - G2` and the
plane `G3`, each as two truncated halves, where `G1`, `G2`, `G3` are the first, second and
third blur of the edge-repeated image. -/
theorem combine_same_image (U : Util) (img : ℤ → ℤ → ℤ) (width height : ℤ)
    (dist : ℤ → ℚ) (x y : ℤ)
    (himg : ∀ a b : ℤ, 0 ≤ a → a < width → 0 ≤ b → b < height → isU16 (img a b))
    (hblur : ∀ im : ℤ → ℤ → ℤ, (∀ a b, isU16 (im a b)) → ∀ a b, isU16 (U.gauss_7x7 im a b))
    (hnorm : U.gauss_7x7_f32 (fun _ _ => 1 / 2) = fun _ _ => 1 / 2)
    (hdist : ∀ v, 0 < dist v) (hw : 0 < width) (hh : 0 < height) :
    combine U img img width height dist x y =
      u16_sat_int
        (2 * Int.tdiv (repeat_edge img width height x y -
              U.gauss_7x7 (repeat_edge img width height) x y) 2 +
          2 * Int.tdiv (U.gauss_7x7 (repeat_edge img width height) x y -
              U.gauss_7x7 (U.gauss_7x7 (repeat_edge img width height)) x y) 2 +
          2 * Int.tdiv
            (U.gauss_7x7 (U.gauss_7x7 (U.gauss_7x7 (repeat_edge img width height))) x y) 2) := by
  have h0 := repeat_edge_isU16 img width height hw hh himg
  have h1 := hblur _ h0
  have h2 := hblur _ h1
  have h3 := hblur _ h2
  have hm1 : ∀ a b : ℤ, f32 (f32 (dist (img a b)) /
      f32 (f32 (dist (img a b)) + f32 (dist (img a b)))) = 1 / 2 :=
    fun a b => mask_half _ (hdist _)
  have hhalf : f32 (1 - 1 / 2) = 1 / 2 := by
    have : (1 : ℚ) - 1 / 2 = 1 / 2 := by norm_num
    rw [this, f32_half]
  unfold combine
  simp only [num_layers, Nat.add_one_sub_one, Function.iterate_succ, Function.iterate_zero,
    Function.comp_apply, combine_layer, id_eq, init_mask2, init_mask1, hm1, hhalf, hnorm, diff]
  obtain ⟨a0, a1⟩ := h0 x y
  obtain ⟨b0, b1⟩ := h1 x y
  obtain ⟨c0, c1⟩ := h2 x y
  obtain ⟨d0, d1⟩ := h3 x y
  generalize repeat_edge img width height x y = a at *
  generalize U.gauss_7x7 (repeat_edge img width height) x y = g1 at *
  generalize U.gauss_7x7 (U.gauss_7x7 (repeat_edge img width height)) x y = g2 at *
  generalize
    U.gauss_7x7 (U.gauss_7x7 (U.gauss_7x7 (repeat_edge img width height))) x y = g3 at *
  have w1 : wrap_i32 (a - g1) = a - g1 := wrap_i32_of_bounds _ (by omega) (by omega)
  have w2 : wrap_i32 (g1 - g2) = g1 - g2 := wrap_i32_of_bounds _ (by omega) (by omega)
  rw [w1, w2, band_term_half (a - g1) (by rw [abs_lt]; constructor <;> omega),
    band_term_half (g1 - g2) (by rw [abs_lt]; constructor <;> omega),
    band_term_half g3 (by rw [abs_lt]; constructor <;> omega)]
  obtain ⟨p0, p1⟩ := tdiv_two_bounds (a - g1) (by omega) (by omega)
  obtain ⟨q0, q1⟩ := tdiv_two_bounds (g1 - g2) (by omega) (by omega)
  obtain ⟨r0, r1⟩ := tdiv_two_bounds g3 (by omega) (by omega)
  generalize Int.tdiv (a - g1) 2 = p at *
  generalize Int.tdiv (g1 - g2) 2 = q at *
  generalize Int.tdiv g3 2 = r at *
  have e1 : wrap_i32 (p + p) = p + p := wrap_i32_of_bounds _ (by omega) (by omega)
  have e2 : wrap_i32 (q + q) = q + q := wrap_i32_of_bounds _ (by omega) (by omega)
  have e3 : wrap_i32 (r + r) = r + r := wrap_i32_of_bounds _ (by omega) (by omega)
  have e4 : wrap_i32 (0 + (p + p)) = p + p := by
    rw [zero_add]; exact e1
  have e5 : wrap_i32 (p + p + (q + q)) = p + p + (q + q) :=
    wrap_i32_of_bounds _ (by omega) (by omega)
  have e6 : wrap_i32 (p + p + (q + q) + (r + r)) = p + p + (q + q) + (r + r) :=
    wrap_i32_of_bounds _ (by omega) (by omega)
  rw [e1, e2, e3, e4, e5, e6]
  congr 1
  ring

theorem sum7_bounds (f : ℤ → ℤ) (M : ℤ) (h : ∀ i, 0 ≤ f i ∧ f i ≤ M) :
    0 ≤ sum7 f ∧ sum7 f ≤ 7 * M := by
  unfold sum7
  have a1 := h (-3)
  have a2 := h (-2)
  have a3 := h (-1)
  have a4 := h 0
  have a5 := h 1
  have a6 := h 2
  have a7 := h 3
  omega

theorem box_blur_isU16 (im : ℤ → ℤ → ℤ) (h : ∀ a b, isU16 (im a b)) (a b : ℤ) :
    isU16 (box_blur im a b) := by
  have h1 : ∀ j : ℤ, 0 ≤ sum7 (fun i => im (a + i) (b + j)) ∧
      sum7 (fun i => im (a + i) (b + j)) ≤ 7 * 65535 :=
    fun j => sum7_bounds _ 65535 (fun i => h (a + i) (b + j))
  have h2 := sum7_bounds (fun j => sum7 (fun i => im (a + i) (b + j))) (7 * 65535) h1
  unfold box_blur isU16
  omega

theorem box_blur_f32_const (c : ℚ) : box_blur_f32 (fun _ _ => c) = fun _ _ => c := by
  funext x y
  simp only [box_blur_f32, sum7]
  ring

/-- The 7x7 mean of a plane that is `10 * a * a + c` on the columns `lo .. hi` is the same
quadratic raised by 40 on the columns `lo + 3 .. hi - 3`. -/
theorem box_blur_quadratic (im : ℤ → ℤ → ℤ) (c lo hi : ℤ)
    (h : ∀ a b : ℤ, lo ≤ a → a ≤ hi → im a b = 10 * a * a + c) (a b : ℤ)
    (ha0 : lo + 3 ≤ a) (ha1 : a ≤ hi - 3) : box_blur im a b = 10 * a * a + (c + 40) := by
  have e1 : ∀ j, im (a + -3) j = 10 * (a + -3) * (a + -3) + c :=
    fun j => h _ _ (by omega) (by omega)
  have e2 : ∀ j, im (a + -2) j = 10 * (a + -2) * (a + -2) + c :=
    fun j => h _ _ (by omega) (by omega)
  have e3 : ∀ j, im (a + -1) j = 10 * (a + -1) * (a + -1) + c :=
    fun j => h _ _ (by omega) (by omega)
  have e4 : ∀ j, im (a + 0) j = 10 * (a + 0) * (a + 0) + c :=
    fun j => h _ _ (by omega) (by omega)
  have e5 : ∀ j, im (a + 1) j = 10 * (a + 1) * (a + 1) + c :=
    fun j => h _ _ (by omega) (by omega)
  have e6 : ∀ j, im (a + 2) j = 10 * (a + 2) * (a + 2) + c :=
    fun j => h _ _ (by omega) (by omega)
  have e7 : ∀ j, im (a + 3) j = 10 * (a + 3) * (a + 3) + c :=
    fun j => h _ _ (by omega) (by omega)
  simp only [box_blur, sum7, e1, e2, e3, e4, e5, e6, e7]
  apply Int.ediv_eq_of_eq_mul_right (by norm_num)
  ring

/-- C1 fails on the code: `combine` on two copies of the 64x64 image `10 * x * x`, with the
constant weight 1 and the 7x7 mean as blur (a normalized blur that maps 16-bit planes to
16-bit planes), returns 10280 at the pixel `(32, 32)`, where the image is 10240.  The loop
adds the bands `im - G1` and `G1 - G2` and the last line adds `G3`, the blur of `G2`, so
the band `G2 - G3` (here -40) is missing from the sum. -/
theorem combine_drops_band :
    (∀ c : ℚ, box_util.gauss_7x7_f32 (fun _ _ => c) = fun _ _ => c) ∧
      (∀ a b : ℤ, 0 ≤ a → a < 64 → 0 ≤ b → b < 64 → isU16 (quad_image a b)) ∧
      quad_image 32 32 = 10240 ∧
      combine box_util quad_image quad_image 64 64 (fun _ => 1) 32 32 = 10280 := by
  have himg : ∀ a b : ℤ, 0 ≤ a → a < 64 → 0 ≤ b → b < 64 → isU16 (quad_image a b) := by
    intro a b h0 h1 _ _
    unfold quad_image isU16
    have h2 : a * a ≤ 63 * 63 := mul_le_mul (by omega) (by omega) h0 (by norm_num)
    have h3 : 0 ≤ a * a := mul_nonneg h0 h0
    constructor <;> nlinarith
  have h0 : ∀ a b : ℤ, 0 ≤ a → a ≤ 63 → repeat_edge quad_image 64 64 a b = 10 * a * a + 0 := by
    intro a b ha0 ha1
    simp only [repeat_edge, quad_image]
    rw [min_eq_left (by omega), max_eq_left ha0]
    ring
  have h1 := box_blur_quadratic _ 0 0 63 h0
  have h2 := box_blur_quadratic _ (0 + 40) (0 + 3) (63 - 3) h1
  have h3 := box_blur_quadratic _ (0 + 40 + 40) (0 + 3 + 3) (63 - 3 - 3) h2
  refine ⟨box_blur_f32_const, himg, by decide, ?_⟩
  rw [combine_same_image box_util quad_image 64 64 (fun _ => 1) 32 32 himg
    box_blur_isU16 (box_blur_f32_const (1 / 2)) (fun _ => by norm_num) (by norm_num)
    (by norm_num)]
  simp only [box_util]
  rw [h3 32 32 (by norm_num) (by norm_num), h2 32 32 (by norm_num) (by norm_num),
    h1 32 32 (by norm_num) (by norm_num), h0 32 32 (by norm_num) (by norm_num)]
  decide

/-! ## The entry point -/

/-- C10 fails as stated: `finish` returns an image, not an error, for an odd width and
height, for a white point below the black point, and for gains that are zero or
negative. -/
theorem finish_accepts_violations :
    (∃ out, finish box_util (fun _ _ => 1000) 3 5 0 65535 ⟨1, 1, 1, 1⟩ = Except.ok out) ∧
      (∃ out, finish box_util (fun _ _ => 1000) 4 4 900 64 ⟨1, 1, 1, 1⟩ = Except.ok out) ∧
      (∃ out, finish box_util (fun _ _ => 1000) 4 4 0 65535 ⟨0, -1, 1, 1⟩ = Except.ok out) :=
  ⟨⟨_, rfl⟩, ⟨_, rfl⟩, ⟨_, rfl⟩⟩

/-- C10, amended: `finish` checks no precondition.  For every width, height, black point,
white point and gains, also an odd width or height, `wp ≤ bp` and gains that are zero or
negative, it returns an image to the caller and never an error; for `wp ≠ bp` the image
is the result of the chain `black_white_point`, `white_balance`, `demosaic`, `srgb`,
`tone_map` with gain 4, `gamma_correct`, `u8bit_interleaved`. -/
theorem finish_never_rejects (U : Util) (input : ℤ → ℤ → ℤ) (width height bp wp : ℤ)
    (wb : WhiteBalance) :
    (∃ out, finish U input width height bp wp wb = Except.ok out) ∧
      (∀ e : FinishError, finish U input width height bp wp wb ≠ Except.error e) ∧
      (wp ≠ bp → finish U input width height bp wp wb =
        Except.ok (u8bit_interleaved (U.gamma_correct_rgb (tone_map U
          (srgb (demosaic (white_balance (black_white_point input bp wp) width height wb)
            width height)) width height 4)))) := by
  have h2 : finish U input width height bp wp wb = Except.ok (u8bit_interleaved
      (U.gamma_correct_rgb (tone_map U (srgb (demosaic (white_balance
        (black_white_point input bp wp) width height wb) width height)) width height 4))) :=
    rfl
  refine ⟨⟨_, h2⟩, fun e h => ?_, fun _ => h2⟩
  rw [h2] at h
  exact Except.noConfusion h

/-- An odd width and height, a white point below the black point and gains 0 and -1: the
result is the image of the chain. -/
theorem finish_never_rejects_witness :
    finish box_util (fun _ _ => 1000) 3 5 900 64 ⟨0, -1, 1, 1⟩ =
      Except.ok (u8bit_interleaved (box_util.gamma_correct_rgb (tone_map box_util
        (srgb (demosaic (white_balance (black_white_point (fun _ _ => 1000) 900 64) 3 5
          ⟨0, -1, 1, 1⟩) 3 5)) 3 5 4))) :=
  (finish_never_rejects box_util (fun _ _ => 1000) 3 5 900 64 ⟨0, -1, 1, 1⟩).2.2 (by decide)

/-! ## Tone mapping: grayscale and colour reapplication -/

/-- C11: for 16-bit samples `v` (channel value), `lb` (blended luma) and `g` (grayscale)
the unsigned 32-bit product `v * lb` is at most `65535 * 65535` and does not wrap, the
divisor `max(1, g)` is not zero, and the pixel expression of finish.cpp:295 is
`min(65535, floor(v * lb / max(1, g)))`; `tone_map` is that expression at every pixel and
channel. -/
theorem tone_map_reapply_color (v lb g : ℤ) (hv : isU16 v) (hlb : isU16 lb) (hg : isU16 g) :
    v * lb ≤ 65535 * 65535 ∧ v * lb < 4294967296 ∧ wrap_u32 (v * lb) = v * lb ∧
      max 1 g ≠ 0 ∧
      reapply_color v lb g = min 65535 (v * lb / max 1 g) ∧
      (∀ (U : Util) (input : ℤ → ℤ → ℤ → ℤ) (width height gain x y c : ℤ),
        tone_map U input width height gain x y c =
          reapply_color (input x y c)
            (U.gamma_inverse (combine U (U.gamma_correct (grayscale input))
              (U.gamma_correct (brighter gain (grayscale input))) width height
              (normal_dist U)) x y)
            (grayscale input x y)) := by
  obtain ⟨v0, v1⟩ := hv
  obtain ⟨l0, l1⟩ := hlb
  obtain ⟨g0, g1⟩ := hg
  have hp0 : 0 ≤ v * lb := mul_nonneg v0 l0
  have hp1 : v * lb ≤ 65535 * 65535 := mul_le_mul v1 l1 l0 (by norm_num)
  have hd : 0 < max 1 g := lt_of_lt_of_le one_pos (le_max_left 1 g)
  have hw : wrap_u32 (v * lb) = v * lb := by
    unfold wrap_u32
    exact Int.emod_eq_of_lt hp0 (by omega)
  refine ⟨hp1, by omega, hw, ne_of_gt hd, ?_, fun U input width height gain x y c => rfl⟩
  unfold reapply_color u16_sat_int
  rw [hw]
  have hq : 0 ≤ v * lb / max 1 g := Int.ediv_nonneg hp0 (le_of_lt hd)
  generalize v * lb / max 1 g = q at hq
  omega

/-- The colour reapplication at the largest product, `65535 * 65535`, on a black pixel. -/
theorem tone_map_reapply_color_witness :
    reapply_color 65535 65535 0 = min 65535 (65535 * 65535 / max 1 0) :=
  (tone_map_reapply_color 65535 65535 0 (by decide) (by decide) (by decide)).2.2.2.2.1

/-- C16 fails as stated: on the pixel `(R, G, B) = (1, 1, 0)` the mean is `2 / 3`, whose
nearest integer is 1, and `grayscale` is 0. -/
theorem grayscale_not_nearest :
    grayscale (fun _ _ c => if c = 2 then 0 else 1) 0 0 = 0 ∧
      round (((1 : ℤ) + 1 + 0 : ℚ) / 3) = 1 := by
  constructor
  · decide
  · rw [round_eq]
    norm_num [Int.floor_eq_iff]

/-- C16, amended: for 16-bit channel values the 32-bit sum `R + G + B` does not wrap,
`grayscale` is the mean `(R + G + B) / 3` rounded down, and it lies between the smallest
and the largest of the three channel values. -/
theorem grayscale_floor_mean (input : ℤ → ℤ → ℤ → ℤ) (x y : ℤ)
    (hr : isU16 (input x y 0)) (hg : isU16 (input x y 1)) (hb : isU16 (input x y 2)) :
    wrap_u32 (wrap_u32 (wrap_u32 (0 + input x y 0) + input x y 1) + input x y 2) =
        input x y 0 + input x y 1 + input x y 2 ∧
      grayscale input x y = (input x y 0 + input x y 1 + input x y 2) / 3 ∧
      grayscale input x y = ⌊((input x y 0 + input x y 1 + input x y 2 : ℤ) : ℚ) / 3⌋ ∧
      min (input x y 0) (min (input x y 1) (input x y 2)) ≤ grayscale input x y ∧
      grayscale input x y ≤ max (input x y 0) (max (input x y 1) (input x y 2)) := by
  obtain ⟨r0, r1⟩ := hr
  obtain ⟨g0, g1⟩ := hg
  obtain ⟨b0, b1⟩ := hb
  have hfl : ⌊((input x y 0 + input x y 1 + input x y 2 : ℤ) : ℚ) / 3⌋ =
      (input x y 0 + input x y 1 + input x y 2) / 3 := by
    have := Rat.floor_intCast_div_natCast (input x y 0 + input x y 1 + input x y 2) 3
    simpa using this
  rw [hfl]
  unfold grayscale u16 wrap_u32
  refine ⟨by omega, by omega, by omega, by omega, by omega⟩

/-- The grayscale of the pixel `(1, 1, 0)`. -/
theorem grayscale_floor_mean_witness :
    grayscale (fun _ _ c => if c = 2 then 0 else 1) 0 0 = (1 + 1 + 0) / 3 :=
  (grayscale_floor_mean (fun _ _ c => if c = 2 then 0 else 1) 0 0 (by decide) (by decide)
    (by decide)).2.1

/-! ## Demosaic: rounding direction of the division -/

theorem u16_sat_int_fdiv_eq_tdiv (s d : ℤ) (hd : 0 < d) :
    u16_sat_int (Int.fdiv s d) = u16_sat_int (Int.tdiv s d) := by
  rw [Int.fdiv_eq_ediv s (le_of_lt hd)]
  by_cases hs : 0 ≤ s
  · rw [Int.tdiv_eq_ediv hs (le_of_lt hd)]
  · have h1 : s / d < 0 := Int.ediv_neg' (by omega) hd
    have h2 : Int.tdiv s d ≤ 0 := by
      rw [← neg_neg s, Int.neg_tdiv, Int.tdiv_eq_ediv (by omega) (le_of_lt hd)]
      have := Int.ediv_nonneg (show 0 ≤ -s by omega) (le_of_lt hd)
      omega
    unfold u16_sat_int
    omega

/-- C13: each intermediate `d0 .. d3`, computed with the quotient rounded toward minus
infinity, equals the value computed with the quotient truncated toward zero: for a
non-negative weighted sum the two quotients are equal, and for a negative one `u16_sat`
maps both to 0. -/
theorem demosaic_rounding_unobservable (input : ℤ → ℤ → ℤ) (width height x y : ℤ) :
    d0 input width height x y =
        demosaic_filter_trunc (mirror_interior input width height) f0 f0_sum x y ∧
      d1 input width height x y =
        demosaic_filter_trunc (mirror_interior input width height) f1 f1_sum x y ∧
      d2 input width height x y =
        demosaic_filter_trunc (mirror_interior input width height) f2 f2_sum x y ∧
      d3 input width height x y =
        demosaic_filter_trunc (mirror_interior input width height) f3 f3_sum x y ∧
      (∀ s d : ℤ, 0 < d → 0 ≤ s → Int.fdiv s d = Int.tdiv s d) ∧
      (∀ s d : ℤ, 0 < d → s < 0 →
        u16_sat_int (Int.fdiv s d) = 0 ∧ u16_sat_int (Int.tdiv s d) = 0) := by
  unfold d0 d1 d2 d3 demosaic_filter demosaic_filter_trunc
  refine ⟨u16_sat_int_fdiv_eq_tdiv _ _ (by decide), u16_sat_int_fdiv_eq_tdiv _ _ (by decide),
    u16_sat_int_fdiv_eq_tdiv _ _ (by decide), u16_sat_int_fdiv_eq_tdiv _ _ (by decide), ?_, ?_⟩
  · intro s d hd hs
    rw [Int.fdiv_eq_ediv s (le_of_lt hd), Int.tdiv_eq_ediv hs (le_of_lt hd)]
  · intro s d hd hs
    have h1 : s / d < 0 := Int.ediv_neg' hs hd
    have h2 : u16_sat_int (Int.fdiv s d) = 0 := by
      rw [Int.fdiv_eq_ediv s (le_of_lt hd)]
      unfold u16_sat_int
      omega
    exact ⟨h2, by rw [← u16_sat_int_fdiv_eq_tdiv s d hd]; exact h2⟩

/-- A mosaic with one bright sample under a negative weight of `f0`: the weighted sum at
`(0, 0)` is negative, the two quotients differ, and both intermediates are 0. -/
theorem demosaic_rounding_unobservable_witness :
    d0 (fun x y => if x = 2 ∧ y = 0 then 1 else 0) 4 4 0 0 =
        demosaic_filter_trunc (mirror_interior (fun x y => if x = 2 ∧ y = 0 then 1 else 0) 4 4)
          f0 f0_sum 0 0 ∧
      u16_sat_int (Int.fdiv (-2) 8) = 0 ∧ u16_sat_int (Int.tdiv (-2) 8) = 0 :=
  ⟨(demosaic_rounding_unobservable (fun x y => if x = 2 ∧ y = 0 then 1 else 0) 4 4 0 0).1,
    (demosaic_rounding_unobservable (fun x y => if x = 2 ∧ y = 0 then 1 else 0) 4 4
      0 0).2.2.2.2.2 (-2) 8 (by decide) (by decide)⟩

/-! ## Demosaic: the mirrored mosaic -/

theorem mirror_coord_spec (n x : ℤ) (hn : 2 ≤ n) :
    0 ≤ mirror_coord n x ∧ mirror_coord n x < n ∧
      (0 ≤ x → x < n → mirror_coord n x = x) ∧ mirror_coord n x % 2 = x % 2 := by
  have hL : 0 < 2 * (n - 1) := by omega
  have c0 : 0 ≤ x % (2 * (n - 1)) := Int.emod_nonneg x (ne_of_gt hL)
  have c1 : x % (2 * (n - 1)) < 2 * (n - 1) := Int.emod_lt_of_pos x hL
  have c2 : x % (2 * (n - 1)) % 2 = x % 2 := Int.emod_emod_of_dvd x (Dvd.intro _ rfl)
  have c3 : 0 ≤ x → x < n → x % (2 * (n - 1)) = x := fun h0 h1 =>
    Int.emod_eq_of_lt h0 (by omega)
  unfold mirror_coord halide_mod
  simp only [if_neg (ne_of_gt hL)]
  generalize x % (2 * (n - 1)) = c at *
  rcases abs_cases (c - (n - 1)) with ⟨h, _⟩ | ⟨h, _⟩ <;> rw [h] <;>
    refine ⟨by omega, by omega, fun h0 h1 => ?_, by omega⟩ <;>
    · have := c3 h0 h1
      omega

/-- C14: for every extent of at least 2 and every integer coordinate, the mirror-interior
source coordinate lies in the image, is the coordinate itself inside the image, and has
the parity of the coordinate; so the mirrored mosaic sample read at any `(x, y)` is the
sample of an in-range site with the same parities, that is, of the same Bayer colour. -/
theorem mirror_interior_keeps_bayer (input : ℤ → ℤ → ℤ) (width height x y : ℤ)
    (hw : 2 ≤ width) (hh : 2 ≤ height) :
    (0 ≤ mirror_coord width x ∧ mirror_coord width x < width ∧
        (0 ≤ x → x < width → mirror_coord width x = x) ∧
        mirror_coord width x % 2 = x % 2) ∧
      (0 ≤ mirror_coord height y ∧ mirror_coord height y < height ∧
        (0 ≤ y → y < height → mirror_coord height y = y) ∧
        mirror_coord height y % 2 = y % 2) ∧
      mirror_interior input width height x y =
        input (mirror_coord width x) (mirror_coord height y) :=
  ⟨mirror_coord_spec width x hw, mirror_coord_spec height y hh, rfl⟩

/-- The mirrored read at `(-1, 6)` of a 4x6 mosaic comes from the site `(1, 4)`. -/
theorem mirror_interior_keeps_bayer_witness :
    mirror_interior (fun x y => x + 10 * y) 4 6 (-1) 6 = 41 ∧ mirror_coord 4 (-1) % 2 = -1 % 2 :=
  ⟨((mirror_interior_keeps_bayer (fun x y => x + 10 * y) 4 6 (-1) 6 (by decide)
      (by decide)).2.2).trans (by decide),
    (mirror_interior_keeps_bayer (fun x y => x + 10 * y) 4 6 (-1) 6 (by decide)
      (by decide)).1.2.2.2⟩

/-! ## Demosaic on a flat field -/

/-- The 25 terms of `sum_r0` do not wrap when each is at most `12 * 65535` in magnitude:
the sum is the exact sum over the 5x5 window. -/
theorem sum_r0_exact (e : ℤ → ℤ → ℤ) (he : ∀ i j, -786420 ≤ e i j ∧ e i j ≤ 786420) :
    sum_r0 e = sum5 (fun j => sum5 (fun i => e i j)) := by
  have row : ∀ (acc : ℤ) (j : ℤ), -2000000000 ≤ acc → acc ≤ 2000000000 →
      (List.range 5).foldl (fun acc2 (i : ℕ) => wrap_i32 (acc2 + e ((i : ℤ) - 2) j)) acc =
        acc + sum5 (fun i => e i j) := by
    intro acc j h0 h1
    have a0 := he (-2) j
    have a1 := he (-1) j
    have a2 := he 0 j
    have a3 := he 1 j
    have a4 := he 2 j
    simp only [List.range_succ, List.range_zero, List.nil_append, List.cons_append,
      List.foldl_cons, List.foldl_nil, sum5]
    norm_num
    unfold wrap_i32
    omega
  have rb : ∀ j, -3932100 ≤ sum5 (fun i => e i j) ∧ sum5 (fun i => e i j) ≤ 3932100 := by
    intro j
    have a0 := he (-2) j
    have a1 := he (-1) j
    have a2 := he 0 j
    have a3 := he 1 j
    have a4 := he 2 j
    simp only [sum5]
    omega
  have b0 := rb (-2)
  have b1 := rb (-1)
  have b2 := rb 0
  have b3 := rb 1
  have b4 := rb 2
  have outer : ∀ step : ℤ → ℕ → ℤ,
      (List.range 5).foldl step 0 = step (step (step (step (step 0 0) 1) 2) 3) 4 :=
    fun step => rfl
  have c0 : (((0 : ℕ) : ℤ)) - 2 = -2 := by norm_num
  have c1 : (((1 : ℕ) : ℤ)) - 2 = -1 := by norm_num
  have c2 : (((2 : ℕ) : ℤ)) - 2 = 0 := by norm_num
  have c3 : (((3 : ℕ) : ℤ)) - 2 = 1 := by norm_num
  have c4 : (((4 : ℕ) : ℤ)) - 2 = 2 := by norm_num
  unfold sum_r0
  rw [outer]
  simp only [c0, c1, c2, c3, c4]
  rw [row 0 (-2) (by norm_num) (by norm_num), row _ (-1) (by omega) (by omega),
    row _ 0 (by omega) (by omega), row _ 1 (by omega) (by omega),
    row _ 2 (by omega) (by omega)]
  rw [zero_add]
  rfl

theorem setAt_bounds (f : ℤ → ℤ → ℤ) (a b v : ℤ)
    (hf : ∀ x y, -12 ≤ f x y ∧ f x y ≤ 12) (hv : -12 ≤ v ∧ v ≤ 12) (x y : ℤ) :
    -12 ≤ setAt f a b v x y ∧ setAt f a b v x y ≤ 12 := by
  unfold setAt
  split_ifs
  · exact hv
  · exact hf x y

theorem kernel_bounds (rx ry : ℤ) :
    (-12 ≤ f0 rx ry ∧ f0 rx ry ≤ 12) ∧ (-12 ≤ f1 rx ry ∧ f1 rx ry ≤ 12) ∧
      (-12 ≤ f2 rx ry ∧ f2 rx ry ≤ 12) ∧ (-12 ≤ f3 rx ry ∧ f3 rx ry ≤ 12) :=
  ⟨(setAt_bounds _ _ _ _ (setAt_bounds _ _ _ _ (setAt_bounds _ _ _ _ (setAt_bounds _ _ _ _ (setAt_bounds _ _ _ _ (setAt_bounds _ _ _ _ (setAt_bounds _ _ _ _ (setAt_bounds _ _ _ _ (setAt_bounds _ _ _ _ (fun _ _ => ⟨by norm_num, by norm_num⟩) ⟨by norm_num, by norm_num⟩) ⟨by norm_num, by norm_num⟩) ⟨by norm_num, by norm_num⟩) ⟨by norm_num, by norm_num⟩) ⟨by norm_num, by norm_num⟩) ⟨by norm_num, by norm_num⟩) ⟨by norm_num, by norm_num⟩) ⟨by norm_num, by norm_num⟩) ⟨by norm_num, by norm_num⟩) rx ry,
    (setAt_bounds _ _ _ _ (setAt_bounds _ _ _ _ (setAt_bounds _ _ _ _ (setAt_bounds _ _ _ _ (setAt_bounds _ _ _ _ (setAt_bounds _ _ _ _ (setAt_bounds _ _ _ _ (setAt_bounds _ _ _ _ (setAt_bounds _ _ _ _ (setAt_bounds _ _ _ _ (setAt_bounds _ _ _ _ (fun _ _ => ⟨by norm_num, by norm_num⟩) ⟨by norm_num, by norm_num⟩) ⟨by norm_num, by norm_num⟩) ⟨by norm_num, by norm_num⟩) ⟨by norm_num, by norm_num⟩) ⟨by norm_num, by norm_num⟩) ⟨by norm_num, by norm_num⟩) ⟨by norm_num, by norm_num⟩) ⟨by norm_num, by norm_num⟩) ⟨by norm_num, by norm_num⟩) ⟨by norm_num, by norm_num⟩) ⟨by norm_num, by norm_num⟩) rx ry,
    (setAt_bounds _ _ _ _ (setAt_bounds _ _ _ _ (setAt_bounds _ _ _ _ (setAt_bounds _ _ _ _ (setAt_bounds _ _ _ _ (setAt_bounds _ _ _ _ (setAt_bounds _ _ _ _ (setAt_bounds _ _ _ _ (setAt_bounds _ _ _ _ (setAt_bounds _ _ _ _ (setAt_bounds _ _ _ _ (fun _ _ => ⟨by norm_num, by norm_num⟩) ⟨by norm_num, by norm_num⟩) ⟨by norm_num, by norm_num⟩) ⟨by norm_num, by norm_num⟩) ⟨by norm_num, by norm_num⟩) ⟨by norm_num, by norm_num⟩) ⟨by norm_num, by norm_num⟩) ⟨by norm_num, by norm_num⟩) ⟨by norm_num, by norm_num⟩) ⟨by norm_num, by norm_num⟩) ⟨by norm_num, by norm_num⟩) ⟨by norm_num, by norm_num⟩) rx ry,
    (setAt_bounds _ _ _ _ (setAt_bounds _ _ _ _ (setAt_bounds _ _ _ _ (setAt_bounds _ _ _ _ (setAt_bounds _ _ _ _ (setAt_bounds _ _ _ _ (setAt_bounds _ _ _ _ (setAt_bounds _ _ _ _ (setAt_bounds _ _ _ _ (fun _ _ => ⟨by norm_num, by norm_num⟩) ⟨by norm_num, by norm_num⟩) ⟨by norm_num, by norm_num⟩) ⟨by norm_num, by norm_num⟩) ⟨by norm_num, by norm_num⟩) ⟨by norm_num, by norm_num⟩) ⟨by norm_num, by norm_num⟩) ⟨by norm_num, by norm_num⟩) ⟨by norm_num, by norm_num⟩) ⟨by norm_num, by norm_num⟩) rx ry⟩

/-- The weighted sum of a 16-bit plane with a kernel whose weights are at most 12 in
magnitude is computed without wrap-around. -/
theorem weighted_sum_exact (im f : ℤ → ℤ → ℤ) (x y : ℤ) (him : ∀ a b, isU16 (im a b))
    (hf : ∀ rx ry, -12 ≤ f rx ry ∧ f rx ry ≤ 12) :
    sum_r0 (fun rx ry => wrap_i32 (im (x + rx) (y + ry) * f rx ry)) =
      sum5 (fun ry => sum5 (fun rx => im (x + rx) (y + ry) * f rx ry)) := by
  have hp : ∀ rx ry, -786420 ≤ im (x + rx) (y + ry) * f rx ry ∧
      im (x + rx) (y + ry) * f rx ry ≤ 786420 := by
    intro rx ry
    obtain ⟨h0, h1⟩ := him (x + rx) (y + ry)
    obtain ⟨h2, h3⟩ := hf rx ry
    constructor <;> nlinarith
  have hw : ∀ rx ry, wrap_i32 (im (x + rx) (y + ry) * f rx ry) =
      im (x + rx) (y + ry) * f rx ry := fun rx ry =>
    wrap_i32_of_bounds _ (by have := hp rx ry; omega) (by have := hp rx ry; omega)
  rw [sum_r0_exact _ (fun i j => by rw [hw]; exact hp i j)]
  simp only [hw]

/-- On a plane that is `v` everywhere the four filters give `v`, `v`, `v` and
`min(65535, floor(17 * v / 16))`. -/
theorem demosaic_filter_flat (v : ℤ) (hv : isU16 v) (x y : ℤ) :
    demosaic_filter (fun _ _ => v) f0 f0_sum x y = v ∧
      demosaic_filter (fun _ _ => v) f1 f1_sum x y = v ∧
      demosaic_filter (fun _ _ => v) f2 f2_sum x y = v ∧
      demosaic_filter (fun _ _ => v) f3 f3_sum x y = min 65535 (17 * v / 16) := by
  obtain ⟨h0, h1⟩ := hv
  have kb := kernel_bounds
  have s0 : sum5 (fun ry => sum5 (fun rx => v * f0 rx ry)) = v * 8 := by
    simp only [sum5]; norm_num [f0, setAt]; ring
  have s1 : sum5 (fun ry => sum5 (fun rx => v * f1 rx ry)) = v * 16 := by
    simp only [sum5]; norm_num [f1, setAt]; ring
  have s2 : sum5 (fun ry => sum5 (fun rx => v * f2 rx ry)) = v * 16 := by
    simp only [sum5]; norm_num [f2, setAt]; ring
  have s3 : sum5 (fun ry => sum5 (fun rx => v * f3 rx ry)) = v * 17 := by
    simp only [sum5]; norm_num [f3, setAt]; ring
  unfold demosaic_filter
  rw [weighted_sum_exact (fun _ _ => v) f0 x y (fun _ _ => ⟨h0, h1⟩) (fun a b => (kb a b).1),
    weighted_sum_exact (fun _ _ => v) f1 x y (fun _ _ => ⟨h0, h1⟩) (fun a b => (kb a b).2.1),
    weighted_sum_exact (fun _ _ => v) f2 x y (fun _ _ => ⟨h0, h1⟩) (fun a b => (kb a b).2.2.1),
    weighted_sum_exact (fun _ _ => v) f3 x y (fun _ _ => ⟨h0, h1⟩) (fun a b => (kb a b).2.2.2),
    s0, s1, s2, s3]
  simp only [f0_sum, f1_sum, f2_sum, f3_sum]
  simp only [Int.fdiv_eq_ediv _ (show (0 : ℤ) ≤ 8 by norm_num),
    Int.fdiv_eq_ediv _ (show (0 : ℤ) ≤ 16 by norm_num)]
  unfold u16_sat_int
  refine ⟨by omega, by omega, by omega, by omega⟩

/-- On a mosaic that is `v` over an image of at least 2x2 samples the intermediates are
`v`, `v`, `v` and `min(65535, floor(17 * v / 16))` at every pixel. -/
theorem flat_field_intermediates (input : ℤ → ℤ → ℤ) (width height v x y : ℤ)
    (hw : 2 ≤ width) (hh : 2 ≤ height) (hv : isU16 v)
    (hflat : ∀ a b : ℤ, 0 ≤ a → a < width → 0 ≤ b → b < height → input a b = v) :
    d0 input width height x y = v ∧ d1 input width height x y = v ∧
      d2 input width height x y = v ∧
      d3 input width height x y = min 65535 (17 * v / 16) := by
  have hm : mirror_interior input width height = fun _ _ => v := by
    funext a b
    obtain ⟨a0, a1, -, -⟩ := mirror_coord_spec width a hw
    obtain ⟨b0, b1, -, -⟩ := mirror_coord_spec height b hh
    exact hflat _ _ a0 a1 b0 b1
  unfold d0 d1 d2 d3
  rw [hm]
  exact demosaic_filter_flat v hv x y

set_option maxRecDepth 100000 in
/-- C15 fails on the code: on a flat mosaic `d0`, `d1` and `d2` equal the flat value `v`,
but `d3` is `min(65535, floor(17 * v / 16))` because the weights of `f3` sum to 17.  On the
4x4 mosaic that is 16 everywhere `d3` is 17, and so is the blue channel at the red site
`(0, 0)` and the red channel at the blue site `(1, 1)`. -/
theorem flat_field_broken_by_f3 :
    (∀ (input : ℤ → ℤ → ℤ) (width height v x y : ℤ), 2 ≤ width → 2 ≤ height → isU16 v →
        (∀ a b : ℤ, 0 ≤ a → a < width → 0 ≤ b → b < height → input a b = v) →
        d0 input width height x y = v ∧ d1 input width height x y = v ∧
          d2 input width height x y = v ∧
          d3 input width height x y = min 65535 (17 * v / 16)) ∧
      d3 (fun _ _ => 16) 4 4 0 0 = 17 ∧
      demosaic (fun _ _ => 16) 4 4 0 0 2 = 17 ∧
      demosaic (fun _ _ => 16) 4 4 1 1 0 = 17 ∧
      demosaic (fun _ _ => 16) 4 4 0 0 1 = 16 := by
  refine ⟨fun input width height v x y hw hh hv hflat =>
    flat_field_intermediates input width height v x y hw hh hv hflat, ?_, ?_, ?_, ?_⟩ <;>
    decide

/-! ## Colour correction and blend masks in `float` arithmetic -/

theorem rdomUpdate_eq_cells {K : Type} [DecidableEq K] (nx ny : ℕ) (site : ℤ → ℤ → K)
    (val : ℤ → ℤ → ℤ) :
    rdomUpdate nx ny site val = rdomUpdateCells (rdomCells nx ny) site val := by
  funext out
  unfold rdomUpdate rdomUpdateCells rdomCells
  induction ny with
  | zero => rfl
  | succ n ih =>
    rw [List.range_succ, List.foldl_append, List.flatMap_append, List.foldl_append, ← ih]
    simp only [List.foldl_cons, List.foldl_nil, List.flatMap_singleton, List.foldl_map]

/-- An update whose value is a function of the site leaves that function at every site
some cell hits and the previous value elsewhere, whatever the order of the cells. -/
theorem rdomUpdateCells_apply {K : Type} [DecidableEq K] (cells : List (ℕ × ℕ))
    (site : ℤ → ℤ → K) (V : K → ℤ) (out : K → ℤ) (k : K) :
    rdomUpdateCells cells site (fun rx ry => V (site rx ry)) out k =
      if ∃ c ∈ cells, site (c.1 : ℤ) (c.2 : ℤ) = k then V k else out k := by
  unfold rdomUpdateCells
  induction cells generalizing out with
  | nil => simp
  | cons c cs ih =>
    rw [List.foldl_cons, ih]
    by_cases h1 : ∃ c2 ∈ cs, site (c2.1 : ℤ) (c2.2 : ℤ) = k
    · rw [if_pos h1, if_pos]
      obtain ⟨c2, hc2, hs⟩ := h1
      exact ⟨c2, List.mem_cons_of_mem _ hc2, hs⟩
    · rw [if_neg h1]
      by_cases h2 : site (c.1 : ℤ) (c.2 : ℤ) = k
      · rw [if_pos ⟨c, List.mem_cons_self _ _, h2⟩, ← h2, Function.update_same]
      · rw [Function.update_noteq (Ne.symm h2), if_neg]
        rintro ⟨c2, hc2, hs⟩
        rcases List.mem_cons.mp hc2 with h3 | h3
        · subst h3; exact h2 hs
        · exact h1 ⟨c2, h3, hs⟩

theorem demosaic_site_disjoint (i j : Fin 8) (a b a2 b2 : ℤ)
    (h : demosaic_site i a b = demosaic_site j a2 b2) : i = j := by
  fin_cases i <;> fin_cases j <;> simp only [demosaic_site, Prod.mk.injEq] at h <;>
    first | rfl | omega

theorem demosaic_update_apply (input : ℤ → ℤ → ℤ) (width height : ℤ) (i : Fin 8)
    (cells : List (ℕ × ℕ)) (o : ℤ × ℤ × ℤ → ℤ) (k : ℤ × ℤ × ℤ) :
    demosaic_update input width height i cells o k =
      if ∃ c ∈ cells, demosaic_site i (c.1 : ℤ) (c.2 : ℤ) = k
      then demosaic_source input width height i k.1 k.2.1 else o k :=
  rdomUpdateCells_apply cells (demosaic_site i)
    (fun p => demosaic_source input width height i p.1 p.2.1) o k

theorem demosaic_update_perm (input : ℤ → ℤ → ℤ) (width height : ℤ) (i : Fin 8)
    (cells cells2 : List (ℕ × ℕ)) (h : cells.Perm cells2) :
    demosaic_update input width height i cells = demosaic_update input width height i cells2 := by
  funext o k
  rw [demosaic_update_apply, demosaic_update_apply]
  have : (∃ c ∈ cells, demosaic_site i (c.1 : ℤ) (c.2 : ℤ) = k) ↔
      (∃ c ∈ cells2, demosaic_site i (c.1 : ℤ) (c.2 : ℤ) = k) :=
    ⟨fun ⟨c, hc, hs⟩ => ⟨c, h.mem_iff.mp hc, hs⟩, fun ⟨c, hc, hs⟩ => ⟨c, h.mem_iff.mpr hc, hs⟩⟩
  simp only [this]

theorem demosaic_update_comm (input : ℤ → ℤ → ℤ) (width height : ℤ) (i j : Fin 8)
    (ci cj : List (ℕ × ℕ)) (o : ℤ × ℤ × ℤ → ℤ) :
    demosaic_update input width height j cj (demosaic_update input width height i ci o) =
      demosaic_update input width height i ci (demosaic_update input width height j cj o) := by
  funext k
  simp only [demosaic_update_apply]
  by_cases hi : ∃ c ∈ ci, demosaic_site i (c.1 : ℤ) (c.2 : ℤ) = k <;>
    by_cases hj : ∃ c ∈ cj, demosaic_site j (c.1 : ℤ) (c.2 : ℤ) = k
  · have hij : i = j := by
      obtain ⟨c, _, hc⟩ := hi
      obtain ⟨c2, _, hc2⟩ := hj
      exact demosaic_site_disjoint i j _ _ _ _ (hc.trans hc2.symm)
    subst hij
    simp only [if_pos hi, if_pos hj]
  · simp only [if_pos hi, if_neg hj]
  · simp only [if_neg hi, if_pos hj]
  · simp only [if_neg hi, if_neg hj]

theorem demosaic_updates_eq (input : ℤ → ℤ → ℤ) (width height : ℤ) :
    demosaic_updates input width height =
      List.map (fun i => demosaic_update input width height i
        (rdomCells (halfExtent width) (halfExtent height))) [0, 1, 2, 3, 4, 5, 6, 7] := by
  unfold demosaic_updates demosaic_update
  simp only [List.map, ← rdomUpdate_eq_cells]
  rfl

/-- C12: the eight updates of the demosaic output write pairwise disjoint sites and read
only the mosaic and the intermediates, so applying them in any order, each visiting the
cells of the reduction domain in any order, gives at every pixel and channel the value of
the sequential order of the source. -/
theorem demosaic_order_independent (input : ℤ → ℤ → ℤ) (width height : ℤ)
    (order : List (Fin 8)) (cells : Fin 8 → List (ℕ × ℕ))
    (ho : order.Perm [0, 1, 2, 3, 4, 5, 6, 7])
    (hc : ∀ i, (cells i).Perm (rdomCells (halfExtent width) (halfExtent height)))
    (x y c : ℤ) :
    demosaic_scheduled input width height order cells x y c = demosaic input width height x y c ∧
      (∀ i j : Fin 8, i ≠ j → ∀ a b a2 b2 : ℤ, demosaic_site i a b ≠ demosaic_site j a2 b2) ∧
      demosaic_updates input width height =
        List.map (fun i => demosaic_update input width height i
          (rdomCells (halfExtent width) (halfExtent height))) [0, 1, 2, 3, 4, 5, 6, 7] := by
  refine ⟨?_, fun i j hij a b a2 b2 h => hij (demosaic_site_disjoint i j a b a2 b2 h),
    demosaic_updates_eq input width height⟩
  have h1 : (fun (o : ℤ × ℤ × ℤ → ℤ) (i : Fin 8) =>
      demosaic_update input width height i (cells i) o) =
      fun o i => demosaic_update input width height i
        (rdomCells (halfExtent width) (halfExtent height)) o := by
    funext o i
    rw [demosaic_update_perm input width height i _ _ (hc i)]
  unfold demosaic_scheduled demosaic
  rw [h1, List.Perm.foldl_eq' ho
    (fun i _ j _ o => demosaic_update_comm input width height i j _ _ o),
    demosaic_updates_eq, List.foldl_map]

/-- The reversed order of updates and of cells on a 4x4 mosaic, at the pixel `(1, 2)` in
the red channel. -/
theorem demosaic_order_independent_witness :
    demosaic_scheduled (fun x y => x + 10 * y) 4 4 (List.reverse [0, 1, 2, 3, 4, 5, 6, 7])
        (fun _ => List.reverse (rdomCells 2 2)) 1 2 0 =
      demosaic (fun x y => x + 10 * y) 4 4 1 2 0 :=
  (demosaic_order_independent (fun x y => x + 10 * y) 4 4 (List.reverse [0, 1, 2, 3, 4, 5, 6, 7])
    (fun _ => List.reverse (rdomCells 2 2)) (List.reverse_perm _)
    (fun _ => List.reverse_perm _) 1 2 0).1

/-! ## White balance outside the covered cells -/

theorem lt_halfExtent (width : ℤ) (rx : ℕ) (h : rx < halfExtent width) :
    (rx : ℤ) < width / 2 := by
  by_cases hw : 0 ≤ width
  · have := halfExtent_cast width hw
    omega
  · exfalso
    have h1 : Int.tdiv width 2 ≤ 0 := by
      rw [← neg_neg width, Int.neg_tdiv, Int.tdiv_eq_ediv (by omega) (by norm_num)]
      omega
    unfold halfExtent at h
    have h2 : (Int.tdiv width 2).toNat = 0 := Int.toNat_eq_zero.mpr h1
    omega

theorem white_balance_uncovered (input : ℤ → ℤ → ℤ) (width height : ℤ)
    (wb : WhiteBalance) (x y : ℤ)
    (hout : x < 0 ∨ y < 0 ∨ 2 * (width / 2) ≤ x ∨ 2 * (height / 2) ≤ y) :
    white_balance input width height wb x y = 0 := by
  unfold white_balance
  repeat (rw [rdomUpdate_unwritten _ _ _ _ _ _ (by
    intro rx ry hrx hry hs
    have h1 := lt_halfExtent width rx hrx
    have h2 := lt_halfExtent height ry hry
    simp only [wb_site, Prod.mk.injEq] at hs
    omega)])
  rfl

/-- C19: for every input, gains, width and height, `white_balance` is 0 at every `(x, y)`
with `x < 0`, `y < 0`, `x ≥ 2 * floor(width / 2)` or `y ≥ 2 * floor(height / 2)`; for an odd
width the whole last column and for an odd height the whole last row is 0. -/
theorem white_balance_zero_outside (input : ℤ → ℤ → ℤ) (width height : ℤ)
    (wb : WhiteBalance) (x y : ℤ) :
    (x < 0 ∨ y < 0 ∨ 2 * (width / 2) ≤ x ∨ 2 * (height / 2) ≤ y →
        white_balance input width height wb x y = 0) ∧
      (width % 2 = 1 → white_balance input width height wb (width - 1) y = 0) ∧
      (height % 2 = 1 → white_balance input width height wb x (height - 1) = 0) :=
  ⟨white_balance_uncovered input width height wb x y,
    fun h => white_balance_uncovered input width height wb (width - 1) y (by omega),
    fun h => white_balance_uncovered input width height wb x (height - 1) (by omega)⟩

/-- The last column of a 5x4 image of bright samples under unit gains. -/
theorem white_balance_zero_outside_witness :
    white_balance (fun _ _ => 65535) 5 4 ⟨1, 1, 1, 1⟩ 4 1 = 0 :=
  (white_balance_zero_outside (fun _ _ => 65535) 5 4 ⟨1, 1, 1, 1⟩ 4 1).2.1 (by decide)

end HDRPlus
